import Mathlib

/-!
# Verification development for the drorg synchronization and path-resolution core

This file gives a shallow embedding, in Lean 4, of the core of the `drorg`
document-organizer: the local mirror database and its upsert/delete
operations (`src/database.rs`, `src/schema.rs`), the change-application
and full-import passes of the sync engine (`Application::sync_account`,
`Application::import_documents` in `src/app.rs`), the in-memory linkage
graph and its ancestor-path enumeration (`Application::load_linkage_table`,
`LinkageTable::find_parent_paths`), and the document-specifier resolver
(`GetDocBuilder::process_impl`, `GetDocBuilder::process_one`,
`Application::ids_to_docs`).

Modelling conventions:

* SQL tables are lists of rows.  SQLite `REPLACE INTO` on a table with a
  primary key deletes any conflicting row and appends the new row; it is
  modelled by `upsertBy` (filter out rows with an equal key, append).
  `DELETE ... WHERE f` is `List.filter (not f)`.  Queries that take the
  first matching row (`\.first`) are `List.find?` in table order.
* Timestamps (`chrono::NaiveDateTime`) are modelled as integers that have
  already been parsed; an RFC3339 parse failure of a `modifiedTime`
  coincides in this model with the field being absent (both are the
  error path of `NewDoc::from_api_object`).
* Rust panics (`unwrap` on a missing value, a failed `assert_eq!`) and
  fuel exhaustion of the loop embedding are modelled by `Option.none`
  wrapped around the result.
* The `petgraph` graph is modelled by a node-weight list (index = node
  index) and an edge list in insertion order; `Graph::neighbors` walks a
  node's outgoing edges most-recently-added first, hence the `reverse`.
* The work list `queue` of `find_parent_paths` is a Rust `Vec` used as a
  stack (push/pop at the end); it is modelled as a list held top-first,
  so `push` is cons and `pop` takes the head.
* `find_parent_paths` is a `while` loop; it is embedded with fuel.  The
  function `find_parent_paths` runs the loop with the explicit fuel bound
  `fppFuelBound`, and the termination theorem proves that this bound is
  never exhausted (and that any larger fuel gives the same result).
-/

deriving instance DecidableEq for Except

namespace Drorg

/-! ## Data model (`src/schema.rs`, `src/database.rs`) -/

/-- A row of the `docs` table.  `modified_time` is the parsed UTC instant. -/
structure Doc where
  id : String
  name : String
  mime_type : String
  modified_time : Int
  starred : Bool
  trashed : Bool
deriving DecidableEq, Repr

/-- A row of the `accounts` table. -/
structure AccountRow where
  id : Int
  email : String
deriving DecidableEq, Repr

/-- A row of the `links` table; primary key is the whole row
`(account_id, parent_id, child_id)`. -/
structure DbLink where
  account_id : Int
  parent_id : String
  child_id : String
deriving DecidableEq, Repr

/-- A row of the `account_associations` table; primary key
`(doc_id, account_id)` is the whole row. -/
structure AccountAssociation where
  doc_id : String
  account_id : Int
deriving DecidableEq, Repr

/-- A row of the `listitems` table; primary key `(listing_id, position)`. -/
structure ListItem where
  listing_id : Int
  position : Int
  doc_id : String
deriving DecidableEq, Repr

/-- `CLI_LAST_PRINT_ID`: the listing id of the last printed document list. -/
def CLI_LAST_PRINT_ID : Int := 0

/-- `CLI_CWD_ID`: the listing id of the virtual current working directory. -/
def CLI_CWD_ID : Int := 1

/-- The local mirror database: the five tables of `src/schema.rs`. -/
structure Database where
  docs : List Doc
  accounts : List AccountRow
  links : List DbLink
  assocs : List AccountAssociation
  listitems : List ListItem
deriving DecidableEq, Repr

/-- `REPLACE INTO` semantics for a table with primary key `k`: delete any
row whose key equals the new row's key, then append the new row. -/
def upsertBy {α κ : Type} [DecidableEq κ] (k : α → κ) (r : α) (l : List α) : List α :=
  l.filter (fun x => decide (k x ≠ k r)) ++ [r]

/-- A sequence of `REPLACE INTO` statements applied in order. -/
def upsertSeq {α κ : Type} [DecidableEq κ] (k : α → κ) (rs : List α) (l : List α) : List α :=
  rs.foldl (fun acc r => upsertBy k r acc) l

/-! ## Remote records (`google_drive3::File` / `google_drive3::Change`,
fields as consumed by `src/database.rs` and `src/app.rs`) -/

/-- The fields of a remote file record that the core consumes.
`modified_time` is `none` when the field is absent or unparseable. -/
structure FileObj where
  id : Option String
  name : Option String
  mime_type : Option String
  starred : Option Bool
  trashed : Option Bool
  modified_time : Option Int
  parents : Option (List String)
deriving DecidableEq, Repr

/-- A remote change record (`google_drive3::Change`), fields as consumed. -/
structure ChangeRecord where
  file_id : Option String
  removed : Option Bool
  file : Option FileObj
deriving DecidableEq, Repr

/-- `NewDoc::from_api_object`: build a document row from a remote file
record; errors when the id or the modified time is missing. -/
def newDocFromApi (f : FileObj) : Except String Doc :=
  match f.id with
  | none => .error "no ID provided with file object"
  | some i =>
    match f.modified_time with
    | none => .error "no modifiedTime provided with file object"
    | some mt =>
      .ok { id := i
            name := f.name.getD "???"
            mime_type := f.mime_type.getD ""
            modified_time := mt
            starred := f.starred.getD false
            trashed := f.trashed.getD false }

/-! ## Change application (`Application::sync_account`, the loop body) -/

/-- Apply one change record for account `acct` to the database, as the
body of the `for maybe_change in lister.iter()` loop does:
a record without `file_id` is skipped; a removal deletes the account's
links touching the id, all account associations of the id, and the
document row; an update upserts the document and association, deletes
the account's inbound links of the id and inserts one link per parent. -/
def applyChange (acct : Int) (db : Database) (c : ChangeRecord) : Except String Database :=
  match c.file_id with
  | none => .ok db
  | some fid =>
    if c.removed.getD false then
      let links1 := db.links.filter (fun l => decide (¬(l.account_id = acct ∧ l.parent_id = fid)))
      let links2 := links1.filter (fun l => decide (¬(l.account_id = acct ∧ l.child_id = fid)))
      let assocs1 := db.assocs.filter (fun a => decide (¬(a.doc_id = fid)))
      let docs1 := db.docs.filter (fun d => decide (¬(d.id = fid)))
      .ok { db with links := links2, assocs := assocs1, docs := docs1 }
    else
      match c.file with
      | none => .error "server reported file change but did not provide its information"
      | some f =>
        match newDocFromApi f with
        | .error e => .error e
        | .ok nd =>
          let docs1 := upsertBy Doc.id nd db.docs
          let assocs1 := upsertBy id (AccountAssociation.mk nd.id acct) db.assocs
          let links1 := db.links.filter (fun l => decide (¬(l.account_id = acct ∧ l.child_id = fid)))
          let links2 :=
            match f.parents with
            | none => links1
            | some ps => upsertSeq id (ps.map (fun pid => DbLink.mk acct pid fid)) links1
          .ok { db with docs := docs1, assocs := assocs1, links := links2 }

/-- The page walk of `sync_account`: apply the change records delivered by
the lister in order; the first error (a failed remote call, or a bad
record) aborts, leaving the database as mutated so far (each statement is
its own storage transaction). -/
def walkChanges (acct : Int) : List (Except String ChangeRecord) → Database →
    Except String Unit × Database
  | [], db => (.ok (), db)
  | .error e :: _, db => (.error e, db)
  | .ok c :: rest, db =>
    match applyChange acct db c with
    | .error e => (.error e, db)
    | .ok db1 => walkChanges acct rest db1

/-- The persistent per-account state that `sync_account` touches
(`AccountData.change_page_token`; the OAuth token blob is opaque). -/
structure AccountData where
  change_page_token : Option String
deriving DecidableEq, Repr

/-- Outcome of a `sync_account` pass: the result, the in-memory account
data, the on-disk (JSON-persisted) account data, and the database. -/
structure SyncOutcome where
  result : Except String Unit
  mem : AccountData
  disk : AccountData
  db : Database
deriving Repr

/-- `Application::sync_account` for one account.  `changes` is what the
change lister yields, `finalToken` the token available from
`into_change_page_token` after a full drain.  The stored token is taken
out of the in-memory state; on success `with_drive_hub` saves the account
JSON, the new token is installed and saved again; on any failure the
error propagates before either save, so the disk state is untouched. -/
def sync_account (changes : List (Except String ChangeRecord)) (finalToken : String)
    (acct : Int) (mem disk : AccountData) (db : Database) : SyncOutcome :=
  match mem.change_page_token with
  | none => ⟨.error "no change-paging token", mem, disk, db⟩
  | some _tok =>
    let mem1 : AccountData := ⟨none⟩
    match walkChanges acct changes db with
    | (.error e, db1) => ⟨.error e, mem1, disk, db1⟩
    | (.ok _, db1) =>
      let mem2 : AccountData := ⟨some finalToken⟩
      ⟨.ok (), mem2, mem2, db1⟩

/-! ## Full import (`Application::import_documents`) -/

/-- Apply one record of the full listing: upsert the document and its
account association, and insert one link per reported parent (no links
are ever deleted on this path). -/
def importOne (acct : Int) (db : Database) (f : FileObj) : Except String Database :=
  match newDocFromApi f with
  | .error e => .error e
  | .ok nd =>
    let docs1 := upsertBy Doc.id nd db.docs
    let assocs1 := upsertBy id (AccountAssociation.mk nd.id acct) db.assocs
    let links1 :=
      match f.parents with
      | none => db.links
      | some ps => upsertSeq id (ps.map (fun pid => DbLink.mk acct pid nd.id)) db.links
    .ok { db with docs := docs1, assocs := assocs1, links := links1 }

/-- Fold `importOne` over the listing, aborting on the first error. -/
def importList (acct : Int) : List FileObj → Database → Except String Database
  | [], db => .ok db
  | f :: rest, db =>
    match importOne acct db f with
    | .error e => .error e
    | .ok db1 => importList acct rest db1

/-- `Application::import_documents`: upsert the explicitly fetched root
record and its association (the root codepath adds no links), then walk
the full listing. -/
def import_documents (acct : Int) (root : FileObj) (files : List FileObj)
    (db : Database) : Except String Database :=
  match newDocFromApi root with
  | .error e => .error e
  | .ok nd =>
    let docs1 := upsertBy Doc.id nd db.docs
    let assocs1 := upsertBy id (AccountAssociation.mk nd.id acct) db.assocs
    importList acct files { db with docs := docs1, assocs := assocs1 }

/-! ## The linkage graph (`LinkageTable`, `Application::load_linkage_table`) -/

/-- The in-memory linkage graph of one account: node weights are document
ids (index = `petgraph` node index), `edges` is the edge list in insertion
order, `nodes` the id-to-index map built alongside. -/
structure LinkageTable where
  account_id : Int
  transposed : Bool
  weights : List String
  edges : List (Nat × Nat)
  nodes : List (String × Nat)
deriving DecidableEq, Repr

/-- Association-list lookup for the id-to-index map. -/
def lookupId : List (String × Nat) → String → Option Nat
  | [], _ => none
  | (k, v) :: t, s => if k = s then some v else lookupId t s

/-- `nodes.entry(id).or_insert_with(|| graph.add_node(id))`: find the
node index of an id, creating a fresh node when absent. -/
def ensureNode (w : List String) (nd : List (String × Nat)) (s : String) :
    List String × List (String × Nat) × Nat :=
  match lookupId nd s with
  | some ix => (w, nd, ix)
  | none => (w ++ [s], nd ++ [(s, w.length)], w.length)

/-- One step of the link-loading fold: intern both endpoints and add one
edge in the chosen orientation. -/
def loadStep (transposed : Bool)
    (st : List String × List (String × Nat) × List (Nat × Nat)) (l : DbLink) :
    List String × List (String × Nat) × List (Nat × Nat) :=
  let (w, nd, es) := st
  let (w1, nd1, pix) := ensureNode w nd l.parent_id
  let (w2, nd2, cix) := ensureNode w1 nd1 l.child_id
  if transposed then (w2, nd2, es ++ [(cix, pix)]) else (w2, nd2, es ++ [(pix, cix)])

/-- `Application::load_linkage_table`: build the graph from the account's
link rows; with `transposed` the edges run child to parent. -/
def load_linkage_table (acctId : Int) (transposed : Bool) (db : Database) : LinkageTable :=
  let rows := db.links.filter (fun l => decide (l.account_id = acctId))
  let (w, nd, es) := rows.foldl (loadStep transposed) ([], [], [])
  ⟨acctId, transposed, w, es, nd⟩

/-! ## `LinkageTable::find_parent_paths` -/

/-- The predecessor map `path_data`: `none` means no entry (a lookup
panics), `some none` is the start node's terminator, `some (some u)`
records `u` as the predecessor installed on discovery. -/
def Pd : Type := Nat → Option (Option Nat)

/-- Insert or overwrite one `path_data` entry. -/
def pdSet (pd : Pd) (k : Nat) (v : Option Nat) : Pd :=
  fun x => if x = k then some v else pd x

/-- `graph.neighbors(i)`: targets of the outgoing edges of `i`,
most-recently-added first (petgraph's adjacency iterates newest first). -/
def neighborsOf (t : LinkageTable) (i : Nat) : List Nat :=
  ((t.edges.filter (fun e => decide (e.1 = i))).map Prod.snd).reverse

/-- `graph.externals(Direction::Outgoing)`: the node indices with no
outgoing edge. -/
def rootsList (t : LinkageTable) : List Nat :=
  (List.range t.weights.length).filter (fun i => decide (neighborsOf t i = []))

/-- Walk the predecessor chain from `ix`, collecting each node's weight
until a node with recorded predecessor `None` is met (that node's weight
is not collected).  `none` models a panic (missing map entry or missing
weight) or fuel exhaustion; the walk is fueled because `path_data` is an
arbitrary function here. -/
def materialize (t : LinkageTable) (pd : Pd) : Nat → Nat → Option (List String)
  | 0, _ => none
  | fuel + 1, ix =>
    match pd ix with
    | none => none
    | some none => some []
    | some (some nix) =>
      match t.weights.get? ix with
      | none => none
      | some w =>
        match materialize t pd fuel nix with
        | none => none
        | some rest => some (w :: rest)

/-- The loop-detection walk: search the predecessor chain from `ix` for
`target`; `some true` means the candidate edge would close a cycle. -/
def cycleCheck (pd : Pd) : Nat → Nat → Nat → Option Bool
  | 0, _, _ => none
  | fuel + 1, ix, target =>
    if ix = target then some true
    else
      match pd ix with
      | none => none
      | some none => some false
      | some (some nix) => cycleCheck pd fuel nix target

/-- The `for next_ix in self.graph.neighbors(cur_ix)` loop: skip a
neighbor already enqueued or one that would close a cycle in the chain
being built; otherwise record the predecessor and push. -/
def pushLoop (t : LinkageTable) (cur : Nat) :
    List Nat → List Nat → Pd → Option (List Nat × Pd)
  | [], queue, pd => some (queue, pd)
  | nxt :: rest, queue, pd =>
    if queue.contains nxt then pushLoop t cur rest queue pd
    else
      match cycleCheck pd (t.weights.length + 1) cur nxt with
      | none => none
      | some true => pushLoop t cur rest queue pd
      | some false => pushLoop t cur rest (nxt :: queue) (pdSet pd nxt (some cur))

/-- The `while queue.len() > 0` loop of `find_parent_paths`, with fuel.
The queue is held top-first.  A popped root materializes one result path
before its (empty) neighbor list is scanned. -/
def fppLoop (t : LinkageTable) (roots : List Nat) :
    Nat → List Nat → Pd → List (List String) → Option (List (List String))
  | 0, _, _, _ => none
  | fuel + 1, queue, pd, results =>
    match queue with
    | [] => some results
    | cur :: rest =>
      let step1 : Option (List (List String)) :=
        if roots.contains cur then
          match materialize t pd (t.weights.length + 1) cur with
          | none => none
          | some path => some (results ++ [path])
        else some results
      match step1 with
      | none => none
      | some results1 =>
        match pushLoop t cur (neighborsOf t cur) rest pd with
        | none => none
        | some (queue1, pd1) => fppLoop t roots fuel queue1 pd1 results1

/-- `find_parent_paths` with explicit fuel: the `assert_eq!(transposed,
true)` panic is `none`; a start id absent from the graph returns the
empty result; otherwise the worklist runs seeded with the start node and
`path_data = {start: None}`. -/
def findParentPathsFuel (t : LinkageTable) (startId : String) (fuel : Nat) :
    Option (List (List String)) :=
  if t.transposed = false then none
  else
    match lookupId t.nodes startId with
    | none => some []
    | some six =>
      fppLoop t (rootsList t) fuel [six] (pdSet (fun _ => none) six none) []

/-- Fuel that always suffices for the worklist (proved by the termination
theorem): an exponential of the graph size dominating the decreasing
potential of the queue. -/
def fppFuelBound (t : LinkageTable) : Nat :=
  (t.edges.length + 2) ^ t.weights.length + 2

/-- `LinkageTable::find_parent_paths`: the loop run with `fppFuelBound`. -/
def find_parent_paths (t : LinkageTable) (startId : String) :
    Option (List (List String)) :=
  findParentPathsFuel t startId (fppFuelBound t)

/-! ## Document specifier resolver (`GetDocBuilder`, `Application::ids_to_docs`) -/

/-- `Application::ids_to_docs`: look up each id's document row in order;
a missing row is an `unwrap` panic (`none`). -/
def ids_to_docs (db : Database) : List String → Option (List Doc)
  | [] => some []
  | i :: rest =>
    match db.docs.find? (fun d => decide (d.id = i)) with
    | none => none
    | some d =>
      match ids_to_docs db rest with
      | none => none
      | some ds => some (d :: ds)

/-- Lower-case an ASCII letter (SQLite's default `LIKE` folds ASCII). -/
def asciiLower (c : Char) : Char :=
  if 'A' ≤ c ∧ c ≤ 'Z' then Char.ofNat (c.toNat + 32) else c

/-- SQLite `LIKE` matching on character lists: `%` matches any sequence,
`_` any single character, other characters compare ASCII-case-folded.
Every recursive call shrinks `p.length + s.length`, so the structural
fuel `p.length + s.length + 1` supplied by `likeB` is never exhausted. -/
def likeChars : Nat → List Char → List Char → Bool
  | 0, _, _ => false
  | _ + 1, [], [] => true
  | _ + 1, [], _ :: _ => false
  | fuel + 1, '%' :: pt, s =>
    likeChars fuel pt s ||
      (match s with
       | [] => false
       | _ :: st => likeChars fuel ('%' :: pt) st)
  | fuel + 1, '_' :: pt, s =>
    (match s with
     | [] => false
     | _ :: st => likeChars fuel pt st)
  | fuel + 1, c :: pt, s =>
    (match s with
     | [] => false
     | d :: st => asciiLower c = asciiLower d && likeChars fuel pt st)

/-- SQLite `LIKE` on strings. -/
def likeB (p s : String) : Bool :=
  likeChars (p.length + s.length + 1) p.toList s.toList

/-- The `spec == "."` branch: join the CWD listing rows with the docs
table; an empty result is the "virtual CWD not defined" error. -/
def dotBranch (db : Database) : Except String (List Doc) :=
  let ms := (db.listitems.filter (fun li => decide (li.listing_id = CLI_CWD_ID))).flatMap
    (fun li => db.docs.filter (fun d => decide (d.id = li.doc_id)))
  if ms.length < 1 then .error "the virtual CWD is not currently defined"
  else .ok ms

/-- `Doc::accounts`: the accounts associated with a document, via the
association table joined with the accounts table. -/
def docAccounts (db : Database) (d : Doc) : List AccountRow :=
  (db.assocs.filter (fun a => decide (a.doc_id = d.id))).flatMap
    (fun a => db.accounts.filter (fun ac => decide (ac.id = a.account_id)))

/-- `HashSet::insert`, modelled as insertion-ordered deduplication. -/
def hsInsert (l : List String) (s : String) : List String :=
  if l.contains s then l else l ++ [s]

/-- The per-account body of the `".."` branch: build the account's
transposed linkage table, run the path finder, and collect the last hop
(`id_path.pop()`) of every returned path into the id set. -/
def collectPids (db : Database) (cwd : Doc) :
    List AccountRow → List String → Option (List String)
  | [], acc => some acc
  | acct :: rest, acc =>
    let table := load_linkage_table acct.id true db
    match find_parent_paths table cwd.id with
    | none => none
    | some paths =>
      let acc1 := paths.foldl
        (fun a p => match p.getLast? with | none => a | some pid => hsInsert a pid) acc
      collectPids db cwd rest acc1

/-- The deduplicated immediate-parent id set collected by the `".."`
branch for a given CWD document. -/
def dotdotParentIds (db : Database) (cwd : Doc) : Option (List String) :=
  collectPids db cwd (docAccounts db cwd) []

/-- The `spec == ".."` branch: resolve `"."`, take the popped CWD doc,
collect immediate parents over every associated account, and convert the
ids to documents (which panics on a missing row). -/
def dotdotBranch (db : Database) : Option (Except String (List Doc)) :=
  match dotBranch db with
  | .error e => some (.error e)
  | .ok ms =>
    match ms.getLast? with
    | none => none
    | some cwd =>
      match dotdotParentIds db cwd with
      | none => none
      | some pids =>
        match ids_to_docs db pids with
        | none => none
        | some ds => some (.ok ds)

/-- Rust `str::parse::<i32>`: optional sign, one or more ASCII digits,
checked against the `i32` range. -/
def parse_i32 (s : String) : Except String Int :=
  let cs := s.toList
  let sd : Bool × List Char :=
    match cs with
    | '-' :: t => (true, t)
    | '+' :: t => (false, t)
    | t => (false, t)
  if sd.2.isEmpty then .error "cannot parse integer from empty string"
  else if !(sd.2.all Char.isDigit) then .error "invalid digit found in string"
  else
    let v : Int := sd.2.foldl (fun a c => a * 10 + ((c.toNat - 48 : Nat) : Int)) 0
    let v := if sd.1 then -v else v
    if v < -(2 ^ 31) ∨ 2 ^ 31 - 1 < v then .error "number too large to fit in target type"
    else .ok v

/-- The `spec.starts_with("%")` branch: parse the 1-based position,
fetch the listing row at position minus one, then its document. -/
def pctBranch (db : Database) (spec : String) : Except String (List Doc) :=
  let number_text := spec.drop 1
  match parse_i32 number_text with
  | .error e => .error e
  | .ok num =>
    let index := num - 1
    match db.listitems.find?
        (fun li => decide (li.listing_id = CLI_LAST_PRINT_ID ∧ li.position = index)) with
    | none => .error "not a valid recent-document reference"
    | some row =>
      match db.docs.find? (fun d => decide (d.id = row.doc_id)) with
      | none => .error "NotFound"
      | some d => .ok [d]

/-- `GetDocBuilder::process_impl`: the match strategies in precedence
order — exact id, `"."`, `".."`, `"%N"`, substring name match.
(`spec.starts_with("%")` is phrased as a check of the first character.) -/
def process_impl (db : Database) (spec : String) : Option (Except String (List Doc)) :=
  match db.docs.find? (fun d => decide (d.id = spec)) with
  | some d => some (.ok [d])
  | none =>
    if spec = "." then some (dotBranch db)
    else if spec = ".." then dotdotBranch db
    else if spec.toList.head? = some '%' then some (pctBranch db spec)
    else some (.ok (db.docs.filter (fun d => likeB ("%" ++ spec ++ "%") d.name)))

/-- `MAX_TO_PRINT` of `process_one`. -/
def MAX_TO_PRINT : Nat := 20

/-- `Application::print_doc_list` restricted to its database side effect:
an empty list leaves the last-print listing alone; otherwise the listing
is replaced by the enumerated rows. -/
def print_doc_list (db : Database) (ds : List Doc) : Database :=
  if ds.length = 0 then db
  else
    let kept := db.listitems.filter (fun li => decide (li.listing_id ≠ CLI_LAST_PRINT_ID))
    let rows := ds.enum.map (fun p => ListItem.mk CLI_LAST_PRINT_ID (Int.ofNat p.1) p.2.id)
    { db with listitems := kept ++ rows }

/-- Outcome of `process_one`: the returned result, the document listing
printed as a diagnostic (empty when nothing is printed), and the
database after the printing side effect. -/
structure ProcessOneOut where
  result : Except String Doc
  printed : List Doc
  db : Database
deriving Repr

/-- `GetDocBuilder::process_one`: exactly one match is returned; zero
matches is an error; several matches print a listing truncated to
`MAX_TO_PRINT` entries and return an error. -/
def process_one (db : Database) (spec : String) : Option ProcessOneOut :=
  match process_impl db spec with
  | none => none
  | some (.error e) => some ⟨.error e, [], db⟩
  | some (.ok r) =>
    if r.length = 0 then
      some ⟨.error "no documents matched the specification", [], db⟩
    else if r.length = 1 then
      match r.getLast? with
      | none => none
      | some d => some ⟨.ok d, [], db⟩
    else
      let r1 := if r.length > MAX_TO_PRINT then r.take MAX_TO_PRINT else r
      some ⟨.error "specification should have matched exactly one document", r1,
        print_doc_list db r1⟩

/-! ## Spec-side definition of a simple parent path

The following definition is written from the specification's words
("every simple (non-repeating) path from that document up to a graph
root, a node with no outgoing edge in this orientation"), to be compared
with the output of the implementation's `find_parent_paths`. -/

/-- An edge of the linkage graph between two document ids. -/
def hasEdgeB (t : LinkageTable) (u v : String) : Bool :=
  match lookupId t.nodes u, lookupId t.nodes v with
  | some i, some j => decide ((i, j) ∈ t.edges)
  | _, _ => false

/-- A document id naming a root: present in the graph with no outgoing
edge in the loaded orientation. -/
def isRootIdB (t : LinkageTable) (v : String) : Bool :=
  match lookupId t.nodes v with
  | some i => decide (neighborsOf t i = [])
  | none => false

/-- All consecutive pairs of the list are graph edges. -/
def chainB (t : LinkageTable) : List String → Bool
  | [] => true
  | [_] => true
  | u :: v :: rest => hasEdgeB t u v && chainB t (v :: rest)

/-- Spec section 4.3: `p` (outermost folder first, start excluded) is a
simple parent path of `startId` when the walk start, immediate parent,
..., outermost is an edge path of the transposed graph, ends at a root,
and repeats no document id. -/
def specSimpleParentPath (t : LinkageTable) (startId : String) (p : List String) : Bool :=
  match lookupId t.nodes startId with
  | none => false
  | some _ =>
    let c := startId :: p.reverse
    chainB t c &&
      (match c.getLast? with
       | some z => isRootIdB t z
       | none => false) &&
      decide c.Nodup

/-! ## Proof-side notions for the worklist of `find_parent_paths` -/

/-- The weight (document id) stored at a node index. -/
def wAt (t : LinkageTable) (i : Nat) : String := (t.weights.get? i).getD ""

/-- `Chain pd v l`: the predecessor walk from `v` visits exactly the
nodes of `l` (in order) and ends at the node whose recorded predecessor
is `None`. -/
inductive Chain (pd : Pd) : Nat → List Nat → Prop
  | last (v : Nat) : pd v = some none → Chain pd v [v]
  | step (v u : Nat) (l : List Nat) :
      pd v = some (some u) → Chain pd u l → Chain pd v (v :: l)

/-- A well-formed predecessor chain of the traversal: it starts at its
node, ends at the start node, repeats no node, stays inside the node
range, and each consecutive pair is a graph edge (predecessor to
popped node, i.e. the second component points at the first). -/
structure GoodChain (t : LinkageTable) (startIx : Nat) (q : Nat) (l : List Nat) : Prop where
  head_eq : l.head? = some q
  last_eq : l.getLast? = some startIx
  nodup : l.Nodup
  bounded : ∀ x ∈ l, x < t.weights.length
  edges_ok : l.Chain' (fun a b => (b, a) ∈ t.edges)

/-- The nesting relation between stack entries (a node paired with its
chain): everything in the lower entry's chain, other than the lower node
itself, already occurs in the upper entry's chain. -/
def nestRel (p q : Nat × List Nat) : Prop := ∀ x ∈ q.2, x ≠ q.1 → x ∈ p.2

/-- Invariant of the worklist loop: each queued node carries a good
predecessor chain, the queue holds distinct nodes, and the chains nest
down the stack. -/
structure FppInv (t : LinkageTable) (startIx : Nat)
    (queue : List Nat) (pd : Pd) (chs : List (List Nat)) : Prop where
  chains : List.Forall₂ (fun q l => Chain pd q l ∧ GoodChain t startIx q l) queue chs
  nodup : queue.Nodup
  nest : List.Pairwise nestRel (queue.zip chs)

/-- The decreasing potential of the worklist: each queued chain of
length `m` contributes `b ^ (n - m)`, where `n` is the node count and
`b` exceeds the number of edges. -/
def phi (n b : Nat) (chs : List (List Nat)) : Nat :=
  (chs.map (fun l => b ^ (n - l.length))).sum

/-! ## Concrete instances used by counterexamples and witnesses -/

/-- A document row with the given id and name, other fields defaulted. -/
def mkDoc (i n : String) : Doc := ⟨i, n, "", 0, false, false⟩

/-- Link rows for the incompleteness counterexample: `x` and `a` are both
parents of `s`, and `x` is also a parent of `a`. -/
def exDbMissing : Database := ⟨[], [], [⟨1, "a", "s"⟩, ⟨1, "x", "s"⟩, ⟨1, "x", "a"⟩], [], []⟩

/-- The transposed linkage table of `exDbMissing` for account 1. -/
def exTableMissing : LinkageTable := load_linkage_table 1 true exDbMissing

/-- A database whose link table is a two-cycle between `s` and `a`
(each is a parent of the other), for the cycle-safety witness. -/
def exDbCycle : Database := ⟨[], [], [⟨1, "a", "s"⟩, ⟨1, "s", "a"⟩], [], []⟩

/-- A change record that removes document `"d"`. -/
def exRemovalChange : ChangeRecord := ⟨some "d", some true, none⟩

/-- A database exercising the removal path: document `"d"` is linked and
associated under accounts 1 and 2. -/
def exDbRemoval : Database :=
  ⟨[mkDoc "d" "doomed", mkDoc "p" "parent"], [⟨1, "a@x"⟩, ⟨2, "b@x"⟩],
    [⟨1, "p", "d"⟩, ⟨2, "p", "d"⟩, ⟨1, "d", "c"⟩],
    [⟨"d", 1⟩, ⟨"d", 2⟩, ⟨"p", 1⟩], []⟩

/-- An update change record for `"d"` reporting parents `["q"]`. -/
def exUpdateChange : ChangeRecord :=
  ⟨some "d", some false, some ⟨some "d", some "dee", none, none, none, some 7, some ["q"]⟩⟩

/-- A remote file record and listing for the import-idempotence witness. -/
def exRootFile : FileObj := ⟨some "r", some "My Drive", none, none, none, some 0, none⟩

/-- Two listed files: `f1` under the root, `f2` under `f1`. -/
def exListing : List FileObj :=
  [⟨some "f1", some "folder", none, none, none, some 1, some ["r"]⟩,
   ⟨some "f2", some "doc", none, none, none, some 2, some ["f1"]⟩]

/-- A change-lister transcript whose second entry is a failed remote
call, for the no-token-persistence witness. -/
def exFailingChanges : List (Except String ChangeRecord) :=
  [.ok ⟨some "d", some false, some ⟨some "d", some "dee", none, none, none, some 7, none⟩⟩,
   .error "HTTP 500"]

/-- A database holding a document whose id is `"X"` and an unrelated
document whose name contains `"X"`, for the precedence witness. -/
def exDbPrecedence : Database :=
  ⟨[mkDoc "X" "other", mkDoc "Y" "X marks the spot"], [], [], [], []⟩

/-- Twenty-five documents whose names all contain `"match"`. -/
def exDocs25 : List Doc :=
  (List.range 25).map (fun i => mkDoc (toString i) ("match" ++ toString i))

/-- A database with 25 documents matching the substring `"match"`. -/
def exDb25 : Database := ⟨exDocs25, [], [], [], []⟩

/-- A database whose CWD document `C` has a link row naming parent `P`
although no document row `P` exists, for the `".."` panic witness. -/
def exDbDangling : Database :=
  ⟨[mkDoc "C" "cfold"], [⟨5, "e@x"⟩], [⟨5, "P", "C"⟩], [⟨"C", 5⟩], [⟨CLI_CWD_ID, 0, "C"⟩]⟩

/-! ## Record lists extracted from an import, for the factorization of
`import_documents` into one `REPLACE INTO` sequence per table -/

/-- Parse every record of a listing, stopping at the first error (the
order of effects of the import loop). -/
def mapDocs : List FileObj → Except String (List Doc)
  | [] => .ok []
  | f :: rest =>
    match newDocFromApi f with
    | .error e => .error e
    | .ok nd =>
      match mapDocs rest with
      | .error e => .error e
      | .ok nds => .ok (nd :: nds)

/-- The account-association rows upserted for a list of parsed records. -/
def importAssocRecords (acct : Int) (nds : List Doc) : List AccountAssociation :=
  nds.map (fun nd => AccountAssociation.mk nd.id acct)

/-- The link rows upserted for a listing paired with its parsed records. -/
def importLinkRecords (acct : Int) (pairs : List (FileObj × Doc)) : List DbLink :=
  pairs.flatMap (fun p => (p.1.parents.getD []).map (fun pid => DbLink.mk acct pid p.2.id))

/-! ## Generic facts about `REPLACE INTO` sequences -/

theorem mem_upsertBy {α κ : Type} [DecidableEq κ] (k : α → κ) {x r : α} {l : List α} :
    x ∈ upsertBy k r l ↔ (x ∈ l ∧ k x ≠ k r) ∨ x = r := by
  simp [upsertBy, List.mem_filter, List.mem_append]

theorem upsertSeq_cons {α κ : Type} [DecidableEq κ] (k : α → κ) (r : α) (rs : List α)
    (l : List α) : upsertSeq k (r :: rs) l = upsertSeq k rs (upsertBy k r l) := rfl

theorem mem_upsertSeq {α κ : Type} [DecidableEq κ] (k : α → κ) {x : α} {rs l : List α}
    (h : x ∈ upsertSeq k rs l) : x ∈ l ∨ x ∈ rs := by
  induction rs generalizing l with
  | nil => exact Or.inl h
  | cons r rs ih =>
    rw [upsertSeq_cons] at h
    rcases ih h with h1 | h1
    · rcases (mem_upsertBy k).mp h1 with ⟨h2, _⟩ | h2
      · exact Or.inl h2
      · exact Or.inr (by simp [h2])
    · exact Or.inr (List.mem_cons_of_mem _ h1)

theorem upsertSeq_shape {α κ : Type} [DecidableEq κ] (k : α → κ) (rs : List α) :
    ∀ l : List α, upsertSeq k rs l =
      l.filter (fun x => decide (∀ r ∈ rs, k x ≠ k r)) ++ upsertSeq k rs [] := by
  induction rs with
  | nil => intro l; simp [upsertSeq]
  | cons r rs ih =>
    intro l
    rw [upsertSeq_cons, ih (upsertBy k r l), upsertBy, List.filter_append,
      List.filter_filter, upsertSeq_cons, show upsertBy k r ([] : List α) = [r] from rfl,
      ih [r]]
    rw [List.append_assoc]
    congr 1
    apply List.filter_congr
    intro x _
    simp [List.forall_mem_cons, Bool.and_comm]

theorem upsertSeq_nil_key {α κ : Type} [DecidableEq κ] (k : α → κ) {x : α} {rs : List α}
    (hx : x ∈ upsertSeq k rs []) : ∃ r ∈ rs, k x = k r := by
  rcases mem_upsertSeq k hx with h | h
  · cases h
  · exact ⟨x, h, rfl⟩

theorem upsertSeq_idem {α κ : Type} [DecidableEq κ] (k : α → κ) (rs l : List α) :
    upsertSeq k rs (upsertSeq k rs l) = upsertSeq k rs l := by
  conv_lhs => rw [upsertSeq_shape k rs (upsertSeq k rs l)]
  rw [upsertSeq_shape k rs l, List.filter_append, List.filter_filter]
  have h1 : (upsertSeq k rs []).filter (fun x => decide (∀ r ∈ rs, k x ≠ k r)) = [] := by
    rw [List.filter_eq_nil_iff]
    intro a ha
    rcases upsertSeq_nil_key k ha with ⟨r, hr, heq⟩
    simp only [decide_eq_true_eq]
    push_neg
    exact ⟨r, hr, heq⟩
  rw [h1, List.append_nil]
  congr 1
  apply List.filter_congr
  intro x _
  simp

theorem upsertBy_keyNodup {α κ : Type} [DecidableEq κ] (k : α → κ) {r : α} {l : List α}
    (h : (l.map k).Nodup) : ((upsertBy k r l).map k).Nodup := by
  rw [upsertBy, List.map_append, List.map_singleton]
  apply List.Nodup.append
  · exact h.sublist ((l.filter_sublist).map k)
  · exact List.nodup_singleton _
  · intro a ha hb
    rcases List.mem_map.mp ha with ⟨x, hx, rfl⟩
    rcases List.mem_filter.mp hx with ⟨_, hne⟩
    simp only [List.mem_singleton] at hb
    exact absurd hb (by simpa using hne)

theorem upsertSeq_keyNodup {α κ : Type} [DecidableEq κ] (k : α → κ) (rs : List α) :
    ∀ {l : List α}, (l.map k).Nodup → ((upsertSeq k rs l).map k).Nodup := by
  induction rs with
  | nil => intro l h; exact h
  | cons r rs ih =>
    intro l h
    rw [upsertSeq_cons]
    exact ih (upsertBy_keyNodup k h)

theorem upsertSeq_append {α κ : Type} [DecidableEq κ] (k : α → κ) (as bs l : List α) :
    upsertSeq k (as ++ bs) l = upsertSeq k bs (upsertSeq k as l) := by
  simp [upsertSeq, List.foldl_append]

/-! ## Factorization of the import pass -/

theorem importOne_links_shape (acct : Int) (f : FileObj) (nd : Doc) (l : List DbLink) :
    (match f.parents with
      | none => l
      | some ps => upsertSeq id (ps.map (fun pid => DbLink.mk acct pid nd.id)) l) =
    upsertSeq id ((f.parents.getD []).map (fun pid => DbLink.mk acct pid nd.id)) l := by
  cases f.parents <;> rfl

theorem importList_eq (acct : Int) : ∀ (files : List FileObj) (nds : List Doc)
    (db : Database), mapDocs files = .ok nds →
    importList acct files db = .ok
      { db with docs := upsertSeq Doc.id nds db.docs,
                assocs := upsertSeq id (importAssocRecords acct nds) db.assocs,
                links := upsertSeq id (importLinkRecords acct (files.zip nds)) db.links } := by
  intro files
  induction files with
  | nil =>
    intro nds db h
    simp only [mapDocs] at h
    cases h
    rfl
  | cons f files ih =>
    intro nds db h
    simp only [mapDocs] at h
    cases hnd : newDocFromApi f with
    | error e => rw [hnd] at h; cases h
    | ok nd =>
      rw [hnd] at h
      cases hnds : mapDocs files with
      | error e => rw [hnds] at h; cases h
      | ok nds' =>
        rw [hnds] at h
        cases h
        show importList acct (f :: files) db = _
        obtain ⟨d0, a0, l0, s0, li0⟩ := db
        simp only [importList, importOne, hnd]
        rw [ih nds' _ hnds]
        simp only [Except.ok.injEq, Database.mk.injEq]
        and_intros <;>
          first
          | trivial
          | (simp only [importLinkRecords, List.zip_cons_cons, List.flatMap_cons]
             rw [upsertSeq_append, importOne_links_shape acct f nd l0])

theorem importList_ok_mapDocs (acct : Int) : ∀ (files : List FileObj) (db db1 : Database),
    importList acct files db = .ok db1 → ∃ nds, mapDocs files = .ok nds := by
  intro files
  induction files with
  | nil => intro db db1 _; exact ⟨[], rfl⟩
  | cons f files ih =>
    intro db db1 h
    simp only [importList, importOne] at h
    cases hnd : newDocFromApi f with
    | error e => rw [hnd] at h; cases h
    | ok nd =>
      rw [hnd] at h
      rcases ih _ _ h with ⟨nds, hnds⟩
      exact ⟨nd :: nds, by simp [mapDocs, hnd, hnds]⟩

/-- C6: running `import_documents` twice with the remote source returning
the same records leaves the database exactly as after the first run, and
the link table never acquires a duplicate `(account_id, parent_id,
child_id)` row. -/
theorem import_documents_idempotent (acct : Int) (root : FileObj) (files : List FileObj)
    (db db1 : Database) (h : import_documents acct root files db = .ok db1) :
    import_documents acct root files db1 = .ok db1 ∧
      (db.links.Nodup → db1.links.Nodup) := by
  obtain ⟨d0, a0, l0, s0, li0⟩ := db
  unfold import_documents at h ⊢
  cases hr : newDocFromApi root with
  | error e => rw [hr] at h; simp at h
  | ok nd0 =>
    rw [hr] at h
    dsimp only at h ⊢
    rcases importList_ok_mapDocs acct files _ _ h with ⟨nds, hnds⟩
    rw [importList_eq acct files nds _ hnds] at h
    cases h
    constructor
    · rw [importList_eq acct files nds _ hnds]
      simp only [Except.ok.injEq, Database.mk.injEq]
      and_intros
      · show upsertSeq Doc.id (nd0 :: nds)
            (upsertSeq Doc.id (nd0 :: nds) d0) = upsertSeq Doc.id (nd0 :: nds) d0
        exact upsertSeq_idem Doc.id _ _
      · trivial
      · exact upsertSeq_idem id _ _
      · show upsertSeq id (AccountAssociation.mk nd0.id acct :: importAssocRecords acct nds)
            (upsertSeq id (AccountAssociation.mk nd0.id acct :: importAssocRecords acct nds) s0) =
          upsertSeq id (AccountAssociation.mk nd0.id acct :: importAssocRecords acct nds) s0
        exact upsertSeq_idem id _ _
      · trivial
    · intro hn
      have h2 := upsertSeq_keyNodup (fun x : DbLink => x)
        (importLinkRecords acct (files.zip nds)) (l := l0) (by simpa using hn)
      simpa using h2

/-! ## Change application: removal and update -/

theorem parents_match_shape (acct : Int) (po : Option (List String)) (cid : String)
    (l : List DbLink) :
    (match po with
      | none => l
      | some ps => upsertSeq id (ps.map (fun pid => DbLink.mk acct pid cid)) l) =
    upsertSeq id ((po.getD []).map (fun pid => DbLink.mk acct pid cid)) l := by
  cases po <;> rfl

theorem mem_upsertSeq_id {α : Type} [DecidableEq α] {x : α} (rs : List α) :
    ∀ {l : List α}, x ∈ upsertSeq id rs l ↔ x ∈ l ∨ x ∈ rs := by
  induction rs with
  | nil => intro l; simp [upsertSeq]
  | cons r rs ih =>
    intro l
    rw [upsertSeq_cons]
    rw [ih]
    constructor
    · rintro (h1 | h1)
      · rcases (mem_upsertBy id).mp h1 with ⟨h2, _⟩ | h2
        · exact Or.inl h2
        · exact Or.inr (by simp [h2])
      · exact Or.inr (List.mem_cons_of_mem _ h1)
    · rintro (h1 | h1)
      · by_cases hx : x = r
        · exact Or.inl ((mem_upsertBy id).mpr (Or.inr hx))
        · exact Or.inl ((mem_upsertBy id).mpr (Or.inl ⟨h1, by simpa using hx⟩))
      · rcases List.mem_cons.mp h1 with rfl | h2
        · exact Or.inl ((mem_upsertBy id).mpr (Or.inr rfl))
        · exact Or.inr h2

/-- C3: a removal change record with a file id leaves, for the account being
synced, no link row with that id as parent or child, no account-association
row with that id, and no document row with that id. -/
theorem sync_removed_clears (acct : Int) (db : Database) (c : ChangeRecord)
    (fid : String) (db1 : Database)
    (hfid : c.file_id = some fid) (hrem : c.removed.getD false = true)
    (happ : applyChange acct db c = .ok db1) :
    (∀ l ∈ db1.links, l.account_id = acct → l.parent_id ≠ fid ∧ l.child_id ≠ fid) ∧
    (∀ a ∈ db1.assocs, a.account_id = acct → a.doc_id ≠ fid) ∧
    (∀ d ∈ db1.docs, d.id ≠ fid) := by
  unfold applyChange at happ
  rw [hfid] at happ
  dsimp only at happ
  rw [hrem, if_pos rfl] at happ
  cases happ
  refine ⟨?_, ?_, ?_⟩
  · intro l hl hacc
    simp only [List.mem_filter, decide_eq_true_eq] at hl
    obtain ⟨⟨_, h1⟩, h2⟩ := hl
    exact ⟨fun hp => h1 ⟨hacc, hp⟩, fun hc => h2 ⟨hacc, hc⟩⟩
  · intro a ha _
    simp only [List.mem_filter, decide_eq_true_eq] at ha
    exact ha.2
  · intro d hd
    simp only [List.mem_filter, decide_eq_true_eq] at hd
    exact hd.2

/-- C9: the removal path deletes the account-association rows of the id for
every account (the delete filters on the document id alone), so another
account's association row disappears as well. -/
theorem sync_removed_deletes_assocs_all_accounts (acct : Int) (db : Database)
    (c : ChangeRecord) (fid : String) (db1 : Database)
    (hfid : c.file_id = some fid) (hrem : c.removed.getD false = true)
    (happ : applyChange acct db c = .ok db1) :
    db1.assocs = db.assocs.filter (fun a => decide (¬(a.doc_id = fid))) ∧
    ∀ a ∈ db.assocs, a.doc_id = fid → a ∉ db1.assocs := by
  unfold applyChange at happ
  rw [hfid] at happ
  dsimp only at happ
  rw [hrem, if_pos rfl] at happ
  cases happ
  refine ⟨rfl, ?_⟩
  intro a _ hdoc hmem
  simp only [List.mem_filter, decide_eq_true_eq] at hmem
  exact hmem.2 hdoc

/-- C4: an update change record with a file id replaces the account's
inbound links of the id wholesale: afterwards the link rows of the account
whose child is the id are exactly one row per reported parent (none when
the record lists no parents). -/
theorem sync_update_replaces_links (acct : Int) (db : Database) (c : ChangeRecord)
    (fid : String) (f : FileObj) (db1 : Database)
    (hfid : c.file_id = some fid) (hrem : c.removed.getD false = false)
    (hf : c.file = some f)
    (happ : applyChange acct db c = .ok db1) :
    ∀ l : DbLink, (l ∈ db1.links ∧ l.account_id = acct ∧ l.child_id = fid) ↔
      l ∈ (f.parents.getD []).map (fun pid => DbLink.mk acct pid fid) := by
  unfold applyChange at happ
  rw [hfid] at happ
  dsimp only at happ
  rw [hrem, if_neg (by simp), hf] at happ
  dsimp only at happ
  cases hnd : newDocFromApi f with
  | error e => rw [hnd] at happ; cases happ
  | ok nd =>
    rw [hnd] at happ
    dsimp only at happ
    rw [parents_match_shape acct f.parents fid] at happ
    cases happ
    intro l
    constructor
    · rintro ⟨hmem, hacc, hchild⟩
      rcases (mem_upsertSeq_id _).mp hmem with h1 | h1
      · simp only [List.mem_filter, decide_eq_true_eq] at h1
        exact absurd ⟨hacc, hchild⟩ h1.2
      · exact h1
    · intro hmem
      rcases List.mem_map.mp hmem with ⟨pid, _, rfl⟩
      exact ⟨(mem_upsertSeq_id _).mpr (Or.inr hmem), rfl, rfl⟩

/-! ## Failure semantics of the sync pass -/

theorem walkChanges_error_of_mem (acct : Int) :
    ∀ (cs : List (Except String ChangeRecord)) (db : Database) (e : String),
    (Except.error e ∈ cs) → ∃ e', (walkChanges acct cs db).1 = .error e' := by
  intro cs
  induction cs with
  | nil => intro db e h; cases h
  | cons c rest ih =>
    intro db e h
    rcases List.mem_cons.mp h with rfl | hrest
    · exact ⟨e, rfl⟩
    · cases c with
      | error e1 => exact ⟨e1, rfl⟩
      | ok cr =>
        show ∃ e', (match applyChange acct db cr with
          | .error e2 => (Except.error e2, db)
          | .ok db2 => walkChanges acct rest db2).1 = .error e'
        cases hap : applyChange acct db cr with
        | error e2 => exact ⟨e2, rfl⟩
        | ok db2 => exact ih db2 e hrest

/-- C5: if any entry of the change walk is a failed remote call, the whole
sync pass for the account returns an error and nothing is saved to the
account's persistent state: the on-disk data (hence the stored
change-page token) is exactly what it was before the pass. -/
theorem sync_account_failure_no_persist (changes : List (Except String ChangeRecord))
    (finalToken : String) (acct : Int) (mem disk : AccountData) (db : Database)
    (tok : String) (htok : mem.change_page_token = some tok)
    (e : String) (herr : Except.error e ∈ changes) :
    (∃ e', (sync_account changes finalToken acct mem disk db).result = .error e') ∧
    (sync_account changes finalToken acct mem disk db).disk = disk := by
  unfold sync_account
  rw [htok]
  rcases h2 : walkChanges acct changes db with ⟨r, db1⟩
  rcases walkChanges_error_of_mem acct changes db e herr with ⟨e', he'⟩
  rw [h2] at he'
  dsimp only at he'
  subst he'
  exact ⟨⟨e', rfl⟩, rfl⟩

/-! ## Resolver precedence -/

theorem find?_eq_of_keyNodup {α κ : Type} [DecidableEq κ] (k : α → κ) :
    ∀ {l : List α} {x : α} {v : κ}, (l.map k).Nodup → x ∈ l → k x = v →
    l.find? (fun y => decide (k y = v)) = some x := by
  intro l
  induction l with
  | nil => intro x v _ hx; cases hx
  | cons y t ih =>
    intro x v hnd hx hkx
    rw [List.map_cons, List.nodup_cons] at hnd
    rcases List.mem_cons.mp hx with rfl | hxt
    · exact List.find?_cons_of_pos _ (by simp [hkx])
    · have hky : ¬(k y = v) := by
        intro hyv
        exact hnd.1 (hyv ▸ hkx ▸ List.mem_map_of_mem k hxt)
      rw [List.find?_cons_of_neg _ (by simp [hky])]
      exact ih hnd.2 hxt hkx

/-- C7: the resolver's first strategy wins: when a document row's id equals
the specifier, `process_impl` returns exactly that document, so the
substring-name branch (and every later branch) is never consulted. -/
theorem resolver_exact_id_precedence (db : Database) (spec : String) (d : Doc)
    (hnodup : (db.docs.map Doc.id).Nodup) (hd : d ∈ db.docs) (hid : d.id = spec) :
    process_impl db spec = some (.ok [d]) := by
  unfold process_impl
  rw [find?_eq_of_keyNodup Doc.id hnodup hd hid]

/-! ## `ids_to_docs` and the `".."` panic -/

theorem ids_to_docs_none_of_missing (db : Database) :
    ∀ (ids : List String), (∃ i ∈ ids, ∀ d ∈ db.docs, d.id ≠ i) →
    ids_to_docs db ids = none := by
  intro ids
  induction ids with
  | nil => rintro ⟨i, hi, _⟩; cases hi
  | cons j t ih =>
    rintro ⟨i, hi, hmiss⟩
    unfold ids_to_docs
    rcases List.mem_cons.mp hi with rfl | hit
    · have hf : db.docs.find? (fun d => decide (d.id = i)) = none :=
        List.find?_eq_none.mpr (by intro d hd; simpa using hmiss d hd)
      rw [hf]
    · cases hf : db.docs.find? (fun d => decide (d.id = j)) with
      | none => rfl
      | some d => rw [ih ⟨i, hit, hmiss⟩]

theorem ids_to_docs_some_of_present (db : Database) :
    ∀ (ids : List String), (∀ i ∈ ids, ∃ d ∈ db.docs, d.id = i) →
    ∃ ds, ids_to_docs db ids = some ds ∧ ds.length = ids.length := by
  intro ids
  induction ids with
  | nil => intro _; exact ⟨[], rfl, rfl⟩
  | cons j t ih =>
    intro hall
    rcases hall j (List.mem_cons_self j t) with ⟨d, hd, hid⟩
    have hfs : ∃ x, db.docs.find? (fun y => decide (y.id = j)) = some x := by
      have h2 : (db.docs.find? (fun y => decide (y.id = j))).isSome :=
        List.find?_isSome.mpr ⟨d, hd, by simp [hid]⟩
      exact Option.isSome_iff_exists.mp h2
    rcases hfs with ⟨x, hx⟩
    rcases ih (fun i hi => hall i (List.mem_cons_of_mem j hi)) with ⟨ds, hds, hlen⟩
    refine ⟨x :: ds, ?_, by simp [hlen]⟩
    unfold ids_to_docs
    rw [hx, hds]

/-- C10: `ids_to_docs` yields one document per id only when every supplied
id has a document row; any id without a row makes it panic.  In
particular, resolving `".."` panics whenever the traversal collects an
immediate-parent id (named by a link row) that has no document row. -/
theorem ids_to_docs_requires_rows (db : Database) (ids : List String)
    (cwdms : List Doc) (cwd : Doc) (pids : List String) (p : String)
    (hmiss : ∃ i ∈ ids, ∀ d ∈ db.docs, d.id ≠ i)
    (hdot : dotBranch db = .ok cwdms) (hlast : cwdms.getLast? = some cwd)
    (hpids : dotdotParentIds db cwd = some pids) (hp : p ∈ pids)
    (hpmiss : ∀ d ∈ db.docs, d.id ≠ p)
    (hnodd : ∀ d ∈ db.docs, d.id ≠ "..") :
    ids_to_docs db ids = none ∧
    ((∀ i ∈ ids, ∃ d ∈ db.docs, d.id = i) →
      ∃ ds, ids_to_docs db ids = some ds ∧ ds.length = ids.length) ∧
    process_impl db ".." = none := by
  refine ⟨ids_to_docs_none_of_missing db ids hmiss, ids_to_docs_some_of_present db ids, ?_⟩
  unfold process_impl
  have hfnd : db.docs.find? (fun d => decide (d.id = "..")) = none :=
    List.find?_eq_none.mpr (by intro d hd; simpa using hnodd d hd)
  rw [hfnd]
  dsimp only
  rw [if_neg (show ¬((".." : String) = ".") by decide), if_pos rfl]
  unfold dotdotBranch
  rw [hdot]
  dsimp only
  rw [hlast]
  dsimp only
  rw [hpids]
  dsimp only
  rw [ids_to_docs_none_of_missing db pids ⟨p, hp, hpmiss⟩]

/-! ## `process_one` -/

/-- C8: `process_one` returns a document exactly when the specifier
matches exactly one document; zero matches is an error; more than one
match is an error whose diagnostic listing is the first `MAX_TO_PRINT`
(20) candidates. -/
theorem process_one_contract (db : Database) (spec : String) (r : List Doc)
    (h : process_impl db spec = some (.ok r)) :
    ∃ out, process_one db spec = some out ∧
      ((∃ d, out.result = .ok d) ↔ r.length = 1) ∧
      (∀ d, r = [d] → out.result = .ok d) ∧
      (r.length = 0 → ∃ e, out.result = .error e) ∧
      (1 < r.length → (∃ e, out.result = .error e) ∧ out.printed = r.take MAX_TO_PRINT) ∧
      (MAX_TO_PRINT < r.length → out.printed.length = MAX_TO_PRINT) := by
  unfold process_one
  rw [h]
  dsimp only
  by_cases h0 : r.length = 0
  · obtain rfl : r = [] := List.length_eq_zero.mp h0
    refine ⟨_, rfl, ?_, ?_, ?_, ?_, ?_⟩
    · simp
    · intro d hd; cases hd
    · intro _; exact ⟨_, rfl⟩
    · intro h1; cases h1
    · intro h1; cases h1
  · by_cases h1 : r.length = 1
    · obtain ⟨d, rfl⟩ := List.length_eq_one.mp h1
      refine ⟨⟨.ok d, [], db⟩, rfl, ?_, ?_, ?_, ?_, ?_⟩
      · simp
      · intro d' hd'; cases hd'; rfl
      · intro hc; cases hc
      · intro hc; simp at hc
      · intro hc; simp [MAX_TO_PRINT] at hc
    · have h2 : 1 < r.length := by omega
      refine ⟨_, by rw [if_neg h0, if_neg h1], ?_, ?_, ?_, ?_, ?_⟩
      · constructor
        · rintro ⟨d, hd⟩; cases hd
        · intro hc; exact absurd hc h1
      · intro d hd; rw [hd] at h2; simp at h2
      · intro hc; exact absurd hc h0
      · intro _
        refine ⟨⟨_, rfl⟩, ?_⟩
        show (if r.length > MAX_TO_PRINT then r.take MAX_TO_PRINT else r) = r.take MAX_TO_PRINT
        by_cases hgt : r.length > MAX_TO_PRINT
        · rw [if_pos hgt]
        · rw [if_neg hgt, List.take_of_length_le (by omega)]
      · intro hgt
        show (if r.length > MAX_TO_PRINT then r.take MAX_TO_PRINT else r).length = MAX_TO_PRINT
        rw [if_pos hgt, List.length_take]
        omega

/-! ## Predecessor chains: basic facts -/

theorem Chain.head_eq {pd : Pd} {v : Nat} {l : List Nat} (h : Chain pd v l) :
    l.head? = some v := by
  cases h <;> rfl

theorem Chain.ne_nil {pd : Pd} {v : Nat} {l : List Nat} (h : Chain pd v l) : l ≠ [] := by
  cases h <;> simp

theorem Chain.mem_self {pd : Pd} {v : Nat} {l : List Nat} (h : Chain pd v l) : v ∈ l := by
  cases h <;> simp

theorem chain_det {pd : Pd} {v : Nat} {l : List Nat} (h : Chain pd v l) :
    ∀ {l' : List Nat}, Chain pd v l' → l = l' := by
  induction h with
  | last v hv =>
    intro l' h'
    cases h' with
    | last => rfl
    | step _ u _ hu _ => rw [hv] at hu; cases hu
  | step v u l hv _ ih =>
    intro l' h'
    cases h' with
    | last _ hv' => rw [hv] at hv'; cases hv'
    | step _ u' l₂ hu' hc' =>
      rw [hv] at hu'
      cases hu'
      rw [ih hc']

theorem chain_pdSet_of_not_mem {pd : Pd} {t : Nat} {o : Option Nat} {v : Nat}
    {l : List Nat} (hnm : t ∉ l) (h : Chain pd v l) : Chain (pdSet pd t o) v l := by
  induction h with
  | last v hv =>
    exact Chain.last v (by
      rw [pdSet, if_neg (by rintro rfl; exact hnm (by simp))]; exact hv)
  | step v u l hv _ ih =>
    refine Chain.step v u l ?_ (ih (fun hm => hnm (List.mem_cons_of_mem _ hm)))
    rw [pdSet, if_neg (by rintro rfl; exact hnm (by simp))]
    exact hv

theorem chain_pdSet_new {pd : Pd} {u t : Nat} {l : List Nat}
    (h : Chain pd u l) (hnm : t ∉ l) : Chain (pdSet pd t (some u)) t (t :: l) :=
  Chain.step t u l (by rw [pdSet, if_pos rfl]) (chain_pdSet_of_not_mem hnm h)

/-! ## The fueled walks compute on chains -/

theorem cycleCheck_eq {pd : Pd} {v : Nat} {l : List Nat} (h : Chain pd v l) :
    ∀ {fuel : Nat} {target : Nat}, l.length ≤ fuel →
    cycleCheck pd fuel v target = some (decide (target ∈ l)) := by
  induction h with
  | last v hv =>
    intro fuel target hf
    match fuel, hf with
    | fuel + 1, _ =>
      unfold cycleCheck
      by_cases ht : v = target
      · subst ht; rw [if_pos rfl]; simp
      · rw [if_neg ht, hv]
        simp [Ne.symm ht]
  | step v u l hv hc ih =>
    intro fuel target hf
    match fuel, hf with
    | fuel + 1, hf =>
      unfold cycleCheck
      by_cases ht : v = target
      · subst ht; rw [if_pos rfl]; simp
      · rw [if_neg ht, hv]
        dsimp only
        rw [ih (Nat.succ_le_succ_iff.mp (by simpa using hf))]
        simp [List.mem_cons, show ¬(target = v) from fun hh => ht hh.symm]

theorem materialize_eq {t : LinkageTable} {pd : Pd} {v : Nat} {l : List Nat}
    (h : Chain pd v l) :
    ∀ {fuel : Nat}, (∀ x ∈ l, x < t.weights.length) → l.length ≤ fuel →
    materialize t pd fuel v = some ((l.dropLast).map (wAt t)) := by
  induction h with
  | last v hv =>
    intro fuel _ hf
    match fuel, hf with
    | fuel + 1, _ =>
      unfold materialize
      rw [hv]
      simp
  | step v u l hv hc ih =>
    intro fuel hb hf
    match fuel, hf with
    | fuel + 1, hf =>
      unfold materialize
      rw [hv]
      dsimp only
      have hvlt : v < t.weights.length := hb v (by simp)
      rcases List.get?_eq_get (by exact hvlt) with hg
      rw [hg]
      dsimp only
      rw [ih (fun x hx => hb x (List.mem_cons_of_mem _ hx))
        (Nat.succ_le_succ_iff.mp (by simpa using hf))]
      have hld : (v :: l).dropLast = v :: l.dropLast :=
        List.dropLast_cons_of_ne_nil hc.ne_nil
      rw [hld, List.map_cons]
      show some (t.weights.get ⟨v, hvlt⟩ :: _) = some (wAt t v :: _)
      rw [show wAt t v = t.weights.get ⟨v, hvlt⟩ by rw [wAt, hg]; rfl]

theorem nodup_bounded_length {l : List Nat} {n : Nat} (hnd : l.Nodup)
    (hb : ∀ x ∈ l, x < n) : l.length ≤ n := by
  classical
  have h1 : l.length = l.toFinset.card := (List.toFinset_card_of_nodup hnd).symm
  have h2 : l.toFinset ⊆ Finset.range n := by
    intro x hx
    rw [List.mem_toFinset] at hx
    exact Finset.mem_range.mpr (hb x hx)
  calc l.length = l.toFinset.card := h1
    _ ≤ (Finset.range n).card := Finset.card_le_card h2
    _ = n := Finset.card_range n

theorem forall₂_chain_update {t : LinkageTable} {startIx : Nat} {pd : Pd}
    {nxt : Nat} {o : Option Nat} :
    ∀ {queue : List Nat} {chs : List (List Nat)},
    List.Forall₂ (fun q lq => Chain pd q lq ∧ GoodChain t startIx q lq) queue chs →
    (∀ pr ∈ queue.zip chs, nxt ∉ pr.2) →
    List.Forall₂ (fun q lq => Chain (pdSet pd nxt o) q lq ∧ GoodChain t startIx q lq)
      queue chs := by
  intro queue chs hf
  induction hf with
  | nil => intro _; exact List.Forall₂.nil
  | @cons q lq queue' chs' hql hrest ih =>
    intro hno
    refine List.Forall₂.cons ⟨?_, hql.2⟩ (ih (fun pr hpr => hno pr ?_))
    · exact chain_pdSet_of_not_mem (hno (q, lq) (by simp [List.zip_cons_cons])) hql.1
    · rw [List.zip_cons_cons]
      exact List.mem_cons_of_mem _ hpr

/-- The neighbor-scanning loop preserves the worklist invariant: it
succeeds, extends the queue with at most one new node per scanned
neighbor, each new node carrying the popped node's chain extended by
itself, and leaves the popped node's chain intact. -/
theorem pushLoop_spec (t : LinkageTable) (startIx cur : Nat)
    (hwf : ∀ e ∈ t.edges, e.1 < t.weights.length ∧ e.2 < t.weights.length) :
    ∀ (ns : List Nat) (queue : List Nat) (pd : Pd) (chs : List (List Nat)) (l : List Nat),
    Chain pd cur l → GoodChain t startIx cur l →
    (∀ x ∈ ns, (cur, x) ∈ t.edges) →
    FppInv t startIx queue pd chs →
    (∀ pr ∈ queue.zip chs, nestRel (cur, l) pr) →
    ∃ qN chsN pd',
      pushLoop t cur ns queue pd = some (qN ++ queue, pd') ∧
      Chain pd' cur l ∧
      FppInv t startIx (qN ++ queue) pd' (chsN ++ chs) ∧
      qN.length = chsN.length ∧
      qN.length ≤ ns.length ∧
      (∀ lc ∈ chsN, lc.length = l.length + 1) := by
  intro ns
  induction ns with
  | nil =>
    intro queue pd chs l hc hg _ hinv _
    exact ⟨[], [], pd, rfl, hc, hinv, rfl, le_refl _, by simp⟩
  | cons nxt rest ih =>
    intro queue pd chs l hc hg hns hinv hnest0
    have hlen_l : l.length ≤ t.weights.length :=
      nodup_bounded_length hg.nodup hg.bounded
    by_cases hct : queue.contains nxt = true
    · -- already enqueued: skip
      rcases ih queue pd chs l hc hg (fun x hx => hns x (List.mem_cons_of_mem _ hx))
        hinv hnest0 with ⟨qN, chsN, pd', hrun, hcur, hinv', hlen, hle, hch⟩
      refine ⟨qN, chsN, pd', ?_, hcur, hinv', hlen, Nat.le_succ_of_le hle, hch⟩
      unfold pushLoop
      rw [if_pos hct]
      exact hrun
    · -- not in the queue: run the cycle check
      have hcyc : cycleCheck pd (t.weights.length + 1) cur nxt =
          some (decide (nxt ∈ l)) :=
        cycleCheck_eq hc (Nat.le_succ_of_le hlen_l)
      by_cases hmem : nxt ∈ l
      · -- the edge would close a cycle: skip
        rcases ih queue pd chs l hc hg (fun x hx => hns x (List.mem_cons_of_mem _ hx))
          hinv hnest0 with ⟨qN, chsN, pd', hrun, hcur, hinv', hlen, hle, hch⟩
        refine ⟨qN, chsN, pd', ?_, hcur, hinv', hlen, Nat.le_succ_of_le hle, hch⟩
        unfold pushLoop
        have hcyc2 : cycleCheck pd (t.weights.length + 1) cur nxt = some true := by
          rw [hcyc]; simp [hmem]
        rw [if_neg hct, hcyc2]
        exact hrun
      · -- install the predecessor and push
        have hnq : nxt ∉ queue := fun hm => hct (List.elem_iff.mpr hm)
        have hedge : (cur, nxt) ∈ t.edges := hns nxt (by simp)
        have hnlt : nxt < t.weights.length := (hwf _ hedge).2
        obtain ⟨l', hl'⟩ : ∃ l', l = cur :: l' := by
          cases hhd : l with
          | nil => exact absurd hhd hc.ne_nil
          | cons a l' =>
            have := hg.head_eq
            rw [hhd] at this
            simp at this
            exact ⟨l', by rw [this]⟩
        have hgood : GoodChain t startIx nxt (nxt :: l) := by
          refine ⟨rfl, ?_, ?_, ?_, ?_⟩
          · rw [hl', List.getLast?_cons_cons, ← hl']
            exact hg.last_eq
          · exact List.nodup_cons.mpr ⟨hmem, hg.nodup⟩
          · intro x hx
            rcases List.mem_cons.mp hx with rfl | hx2
            · exact hnlt
            · exact hg.bounded x hx2
          · rw [hl']
            exact List.chain'_cons.mpr ⟨hedge, by rw [← hl']; exact hg.edges_ok⟩
        have hno_in_chs : ∀ pr ∈ queue.zip chs, nxt ∉ pr.2 := by
          intro pr hpr hin
          by_cases hq : nxt = pr.1
          · exact hnq (hq ▸ (List.of_mem_zip hpr).1)
          · exact hmem (hnest0 pr hpr nxt hin hq)
        have hinv2 : FppInv t startIx (nxt :: queue) (pdSet pd nxt (some cur))
            ((nxt :: l) :: chs) := by
          refine ⟨?_, ?_, ?_⟩
          · exact List.Forall₂.cons ⟨chain_pdSet_new hc hmem, hgood⟩
              (forall₂_chain_update hinv.chains hno_in_chs)
          · exact List.nodup_cons.mpr ⟨hnq, hinv.nodup⟩
          · rw [List.zip_cons_cons]
            refine List.Pairwise.cons ?_ hinv.nest
            intro pr hpr
            intro x hx hxne
            exact List.mem_cons_of_mem _ (hnest0 pr hpr x hx hxne)
        have hnest2 : ∀ pr ∈ (nxt :: queue).zip ((nxt :: l) :: chs), nestRel (cur, l) pr := by
          rw [List.zip_cons_cons]
          intro pr hpr
          rcases List.mem_cons.mp hpr with rfl | hpr2
          · intro x hx hxne
            rcases List.mem_cons.mp hx with rfl | hx2
            · exact absurd rfl hxne
            · exact hx2
          · exact hnest0 pr hpr2
        rcases ih (nxt :: queue) (pdSet pd nxt (some cur)) ((nxt :: l) :: chs) l
          (chain_pdSet_of_not_mem hmem hc) hg
          (fun x hx => hns x (List.mem_cons_of_mem _ hx)) hinv2 hnest2 with
          ⟨qN, chsN, pd', hrun, hcur, hinv', hlen, hle, hch⟩
        refine ⟨qN ++ [nxt], chsN ++ [nxt :: l], pd', ?_, hcur, ?_, ?_, ?_, ?_⟩
        · unfold pushLoop
          have hcyc2 : cycleCheck pd (t.weights.length + 1) cur nxt = some false := by
            rw [hcyc]; simp [hmem]
          rw [if_neg hct, hcyc2]
          rw [hrun]
          simp
        · simpa using hinv'
        · simp [hlen]
        · simpa using Nat.succ_le_succ hle
        · intro lc hlc
          rcases List.mem_append.mp hlc with h1 | h1
          · exact hch lc h1
          · rw [List.mem_singleton.mp h1]
            simp

/-! ## The worklist loop: invariant preservation and termination measure -/

theorem mem_neighborsOf {t : LinkageTable} {i x : Nat} :
    x ∈ neighborsOf t i ↔ (i, x) ∈ t.edges := by
  unfold neighborsOf
  rw [List.mem_reverse, List.mem_map]
  constructor
  · rintro ⟨e, he, rfl⟩
    rcases List.mem_filter.mp he with ⟨hmem, hfst⟩
    have : e.1 = i := by simpa using hfst
    rw [show ((i, e.2) : Nat × Nat) = e by rw [← this]]
    exact hmem
  · intro hmem
    exact ⟨(i, x), List.mem_filter.mpr ⟨hmem, by simp⟩, rfl⟩

theorem neighborsOf_length_le (t : LinkageTable) (i : Nat) :
    (neighborsOf t i).length ≤ t.edges.length := by
  unfold neighborsOf
  rw [List.length_reverse, List.length_map]
  exact List.length_filter_le _ _

theorem sum_map_const {α : Type} (f : α → Nat) (c : Nat) :
    ∀ (xs : List α), (∀ x ∈ xs, f x = c) → (xs.map f).sum = xs.length * c := by
  intro xs
  induction xs with
  | nil => intro _; simp
  | cons a xs ih =>
    intro h
    rw [List.map_cons, List.sum_cons, ih (fun x hx => h x (List.mem_cons_of_mem _ hx)),
      h a (by simp), List.length_cons]
    ring

theorem phi_decreases {n b : Nat} (hb2 : 2 ≤ b) (l : List Nat)
    (chs' : List (List Nat)) (chsN : List (List Nat))
    (hlen : ∀ lc ∈ chsN, lc.length = l.length + 1)
    (hcount : chsN.length ≤ b - 2)
    (hbound : ∀ lc ∈ chsN, lc.length ≤ n)
    (hl_le : l.length ≤ n) :
    phi n b (chsN ++ chs') < phi n b (l :: chs') := by
  unfold phi
  rw [List.map_append, List.sum_append, List.map_cons, List.sum_cons]
  have hkey : ((chsN.map (fun lc => b ^ (n - lc.length))).sum) < b ^ (n - l.length) := by
    rcases Nat.lt_or_ge l.length n with hlt | hge
    · -- room to grow: every new chain contributes one exponent lower
      have hsum : (chsN.map (fun lc => b ^ (n - lc.length))).sum =
          chsN.length * b ^ (n - l.length - 1) := by
        apply sum_map_const
        intro lc hlc
        rw [hlen lc hlc]
        congr 1
      rw [hsum]
      have he : 1 ≤ n - l.length := by omega
      have hx : 0 < b ^ (n - l.length - 1) := Nat.pos_pow_of_pos _ (by omega)
      calc chsN.length * b ^ (n - l.length - 1)
          ≤ (b - 2) * b ^ (n - l.length - 1) := Nat.mul_le_mul_right _ hcount
        _ < b * b ^ (n - l.length - 1) := by
            exact Nat.mul_lt_mul_of_lt_of_le (by omega) (le_refl _) hx
        _ = b ^ (n - l.length) := by
            rw [← Nat.pow_succ']
            congr 1
            omega
    · -- the chain already visits every node: nothing can be pushed
      have hnil : chsN = [] := by
        cases hcn : chsN with
        | nil => rfl
        | cons lc rest =>
          have h1 := hlen lc (by rw [hcn]; simp)
          have h2 := hbound lc (by rw [hcn]; simp)
          omega
      rw [hnil]
      simp only [List.map_nil, List.sum_nil]
      exact Nat.pos_pow_of_pos _ (by omega)
  omega

theorem forall₂_mem_right {α β : Type} {R : α → β → Prop} :
    ∀ {as : List α} {bs : List β}, List.Forall₂ R as bs → ∀ {b : β}, b ∈ bs →
    ∃ a ∈ as, R a b := by
  intro as bs h
  induction h with
  | nil => intro b hb; cases hb
  | cons hR _ ih =>
    intro b hb
    rcases List.mem_cons.mp hb with rfl | hb2
    · exact ⟨_, by simp, hR⟩
    · rcases ih hb2 with ⟨a, ha, hab⟩
      exact ⟨a, List.mem_cons_of_mem _ ha, hab⟩

theorem fppLoop_mono (t : LinkageTable) (roots : List Nat) :
    ∀ (fuel : Nat) (queue : List Nat) (pd : Pd) (results res : List (List String)),
    fppLoop t roots fuel queue pd results = some res →
    fppLoop t roots (fuel + 1) queue pd results = some res := by
  intro fuel
  induction fuel with
  | zero => intro queue pd results res h; cases h
  | succ fuel ih =>
    intro queue pd results res h
    unfold fppLoop at h ⊢
    cases queue with
    | nil => exact h
    | cons cur rest =>
      dsimp only at h ⊢
      cases hs : (if roots.contains cur = true then
          match materialize t pd (t.weights.length + 1) cur with
          | none => none
          | some path => some (results ++ [path])
        else some results) with
      | none => rw [hs] at h; simp at h
      | some results1 =>
        rw [hs] at h
        cases hp : pushLoop t cur (neighborsOf t cur) rest pd with
        | none => rw [hp] at h; simp at h
        | some q1pd1 =>
          rw [hp] at h
          obtain ⟨q1, p1⟩ := q1pd1
          dsimp only at h ⊢
          exact ih _ _ _ _ h

theorem fppLoop_mono_le (t : LinkageTable) (roots : List Nat)
    {fuel fuel' : Nat} (hle : fuel ≤ fuel')
    {queue : List Nat} {pd : Pd} {results res : List (List String)}
    (h : fppLoop t roots fuel queue pd results = some res) :
    fppLoop t roots fuel' queue pd results = some res := by
  induction fuel', hle using Nat.le_induction with
  | base => exact h
  | succ m _ ih => exact fppLoop_mono t roots m _ _ _ _ ih

/-- The worklist loop: under the invariant, with fuel exceeding the
potential, the loop completes, and every path it appends to the results
is the materialization of a good chain of a root node. -/
theorem fppLoop_spec (t : LinkageTable) (startIx : Nat)
    (hwf : ∀ e ∈ t.edges, e.1 < t.weights.length ∧ e.2 < t.weights.length) :
    ∀ (fuel : Nat) (queue : List Nat) (pd : Pd) (chs : List (List Nat))
      (results : List (List String)),
    FppInv t startIx queue pd chs →
    phi t.weights.length (t.edges.length + 2) chs < fuel →
    ∃ res, fppLoop t (rootsList t) fuel queue pd results = some res ∧
      ∀ p ∈ res, p ∈ results ∨
        ∃ cur lc, (rootsList t).contains cur = true ∧ GoodChain t startIx cur lc ∧
          p = (lc.dropLast).map (wAt t) := by
  intro fuel
  induction fuel with
  | zero =>
    intro queue pd chs results _ hphi
    exact absurd hphi (Nat.not_lt_zero _)
  | succ fuel ih =>
    intro queue pd chs results hinv hphi
    unfold fppLoop
    cases queue with
    | nil => exact ⟨results, rfl, fun p hp => Or.inl hp⟩
    | cons cur rest =>
      obtain ⟨l, chs', ⟨hcChain, hcGood⟩, htail, rfl⟩ :=
        List.forall₂_cons_left_iff.mp hinv.chains
      have hnodup_rest : rest.Nodup := (List.nodup_cons.mp hinv.nodup).2
      have hnest_pair := hinv.nest
      rw [List.zip_cons_cons] at hnest_pair
      have hnest_all : ∀ pr ∈ rest.zip chs', nestRel (cur, l) pr :=
        fun pr hpr => (List.pairwise_cons.mp hnest_pair).1 pr hpr
      have hnest_tail : List.Pairwise nestRel (rest.zip chs') :=
        (List.pairwise_cons.mp hnest_pair).2
      have hinv_rest : FppInv t startIx rest pd chs' := ⟨htail, hnodup_rest, hnest_tail⟩
      have hlen_le : l.length ≤ t.weights.length :=
        nodup_bounded_length hcGood.nodup hcGood.bounded
      have hmat : materialize t pd (t.weights.length + 1) cur =
          some ((l.dropLast).map (wAt t)) :=
        materialize_eq hcChain hcGood.bounded (Nat.le_succ_of_le hlen_le)
      rcases pushLoop_spec t startIx cur hwf (neighborsOf t cur) rest pd chs' l
        hcChain hcGood (fun x hx => mem_neighborsOf.mp hx) hinv_rest hnest_all with
        ⟨qN, chsN, pd', hrun, _hcur, hinv', hlenq, hleq, hch⟩
      have hphi' : phi t.weights.length (t.edges.length + 2) (chsN ++ chs') <
          phi t.weights.length (t.edges.length + 2) (l :: chs') := by
        apply phi_decreases (by omega) l chs' chsN hch ?_ ?_ hlen_le
        · calc chsN.length = qN.length := hlenq.symm
            _ ≤ (neighborsOf t cur).length := hleq
            _ ≤ t.edges.length := neighborsOf_length_le t cur
            _ ≤ t.edges.length + 2 - 2 := by omega
        · intro lc hlc
          rcases forall₂_mem_right hinv'.chains (List.mem_append_left chs' hlc) with
            ⟨q, _, _, hqg⟩
          exact nodup_bounded_length hqg.nodup hqg.bounded
      have hphi_rec : phi t.weights.length (t.edges.length + 2) (chsN ++ chs') < fuel := by
        omega
      by_cases hroot : (rootsList t).contains cur = true
      · rcases ih (qN ++ rest) pd' (chsN ++ chs')
          (results ++ [(l.dropLast).map (wAt t)]) hinv' hphi_rec with ⟨res, hres, hsound⟩
        refine ⟨res, ?_, ?_⟩
        · dsimp only
          rw [if_pos hroot, hmat]
          dsimp only
          rw [hrun]
          exact hres
        · intro p hp
          rcases hsound p hp with hmem | hex
          · rcases List.mem_append.mp hmem with h1 | h1
            · exact Or.inl h1
            · refine Or.inr ⟨cur, l, hroot, hcGood, ?_⟩
              simpa using h1
          · exact Or.inr hex
      · rcases ih (qN ++ rest) pd' (chsN ++ chs') results hinv' hphi_rec with
          ⟨res, hres, hsound⟩
        refine ⟨res, ?_, hsound⟩
        dsimp only
        rw [if_neg hroot]
        dsimp only
        rw [hrun]
        exact hres

/-! ## Structure of the loaded linkage table -/

theorem lookup_enumFrom_get :
    ∀ (w : List String) (k : Nat) (s : String) (i : Nat), w.Nodup →
    w.get? i = some s →
    lookupId ((w.enumFrom k).map (fun p => (p.2, p.1))) s = some (k + i) := by
  intro w
  induction w with
  | nil => intro k s i _ hg; simp at hg
  | cons a w' ih =>
    intro k s i hnd hg
    rw [List.enumFrom_cons, List.map_cons]
    show (if a = s then some k else lookupId _ s) = some (k + i)
    by_cases has : a = s
    · subst has
      rw [if_pos rfl]
      have hi : i = 0 := by
        cases i with
        | zero => rfl
        | succ j =>
          rw [List.get?_cons_succ] at hg
          exact absurd (List.get?_mem hg) (List.nodup_cons.mp hnd).1
      simp [hi]
    · rw [if_neg has]
      cases i with
      | zero => rw [List.get?_cons_zero] at hg; cases hg; exact absurd rfl has
      | succ j =>
        rw [List.get?_cons_succ] at hg
        rw [ih (k + 1) s j (List.nodup_cons.mp hnd).2 hg]
        congr 1
        omega

theorem lookup_enumFrom_inv :
    ∀ (w : List String) (k : Nat) (s : String) (ix : Nat),
    lookupId ((w.enumFrom k).map (fun p => (p.2, p.1))) s = some ix →
    ∃ i, ix = k + i ∧ w.get? i = some s := by
  intro w
  induction w with
  | nil => intro k s ix h; cases h
  | cons a w' ih =>
    intro k s ix h
    rw [List.enumFrom_cons, List.map_cons] at h
    by_cases has : a = s
    · subst has
      have h2 : some k = some ix := by
        rw [show lookupId (((a : String), k) :: _) a = some k from by
          show (if a = a then some k else _) = some k
          rw [if_pos rfl]] at h
        exact h ▸ rfl
      cases h2
      exact ⟨0, by omega, rfl⟩
    · have h2 : lookupId ((w'.enumFrom (k + 1)).map (fun p => (p.2, p.1))) s = some ix := by
        have h3 : lookupId (((a : String), k) :: (w'.enumFrom (k + 1)).map
            (fun p => (p.2, p.1))) s =
            lookupId ((w'.enumFrom (k + 1)).map (fun p => (p.2, p.1))) s := by
          show (if a = s then some k else _) = _
          rw [if_neg has]
        rw [h3] at h
        exact h
      rcases ih (k + 1) s ix h2 with ⟨j, hj, hg⟩
      exact ⟨j + 1, by omega, by rw [List.get?_cons_succ]; exact hg⟩

theorem ensureNode_wf (w : List String) (nd : List (String × Nat)) (s : String)
    (hnd : w.Nodup) (hspec : nd = w.enum.map (fun p => (p.2, p.1))) :
    (ensureNode w nd s).1.Nodup ∧
    (ensureNode w nd s).2.1 = (ensureNode w nd s).1.enum.map (fun p => (p.2, p.1)) ∧
    (ensureNode w nd s).2.2 < (ensureNode w nd s).1.length ∧
    w.length ≤ (ensureNode w nd s).1.length := by
  unfold ensureNode
  cases hl : lookupId nd s with
  | some ix =>
    dsimp only
    have hl2 : lookupId ((w.enumFrom 0).map (fun p => (p.2, p.1))) s = some ix := by
      rw [hspec] at hl
      exact hl
    rcases lookup_enumFrom_inv w 0 s ix hl2 with ⟨i, hi, hg⟩
    refine ⟨hnd, hspec, ?_, le_refl _⟩
    rcases List.get?_eq_some.mp hg with ⟨hlt, _⟩
    omega
  | none =>
    dsimp only
    have hsnot : s ∉ w := by
      intro hmem
      rcases List.mem_iff_get?.mp hmem with ⟨i, hg⟩
      have h4 := lookup_enumFrom_get w 0 s i hnd hg
      have h5 : lookupId nd s = some (0 + i) := by rw [hspec]; exact h4
      rw [hl] at h5
      cases h5
    refine ⟨?_, ?_, ?_, ?_⟩
    · exact List.Nodup.append hnd (List.nodup_singleton s)
        (fun a ha hb => hsnot (by rw [List.mem_singleton.mp hb] at ha; exact ha))
    · rw [List.enum_append, List.map_append, ← hspec]
      rfl
    · simp
    · simp

theorem loadStep_wf (tr : Bool) (st : List String × List (String × Nat) × List (Nat × Nat))
    (lk : DbLink)
    (hnd : st.1.Nodup) (hspec : st.2.1 = st.1.enum.map (fun p => (p.2, p.1)))
    (hed : ∀ e ∈ st.2.2, e.1 < st.1.length ∧ e.2 < st.1.length) :
    (loadStep tr st lk).1.Nodup ∧
    (loadStep tr st lk).2.1 = (loadStep tr st lk).1.enum.map (fun p => (p.2, p.1)) ∧
    (∀ e ∈ (loadStep tr st lk).2.2,
      e.1 < (loadStep tr st lk).1.length ∧ e.2 < (loadStep tr st lk).1.length) := by
  obtain ⟨w, nd, es⟩ := st
  dsimp only at hnd hspec hed
  unfold loadStep
  rcases h1 : ensureNode w nd lk.parent_id with ⟨w1, nd1, pix⟩
  have hw1 := ensureNode_wf w nd lk.parent_id hnd hspec
  rw [h1] at hw1
  dsimp only at hw1
  obtain ⟨hnd1, hspec1, hpix, hlen1⟩ := hw1
  rcases h2 : ensureNode w1 nd1 lk.child_id with ⟨w2, nd2, cix⟩
  have hw2 := ensureNode_wf w1 nd1 lk.child_id hnd1 hspec1
  rw [h2] at hw2
  dsimp only at hw2
  obtain ⟨hnd2, hspec2, hcix, hlen2⟩ := hw2
  have hw1le : w1.length ≤ w2.length := by
    have h3 := ensureNode_wf w1 nd1 lk.child_id hnd1 hspec1
    rw [h2] at h3
    exact h3.2.2.2
  have hpix2 : pix < w2.length := lt_of_lt_of_le hpix hw1le
  have hold : ∀ e ∈ es, e.1 < w2.length ∧ e.2 < w2.length := by
    intro e he
    obtain ⟨ha, hb⟩ := hed e he
    exact ⟨by omega, by omega⟩
  dsimp only
  rw [h1]
  dsimp only
  rw [h2]
  dsimp only
  cases tr with
  | true =>
    rw [if_pos rfl]
    refine ⟨hnd2, hspec2, ?_⟩
    intro e he
    rcases List.mem_append.mp he with h3 | h3
    · exact hold e h3
    · rw [List.mem_singleton.mp h3]
      exact ⟨hcix, hpix2⟩
  | false =>
    rw [if_neg (by simp)]
    refine ⟨hnd2, hspec2, ?_⟩
    intro e he
    rcases List.mem_append.mp he with h3 | h3
    · exact hold e h3
    · rw [List.mem_singleton.mp h3]
      exact ⟨hpix2, hcix⟩

theorem loadFold_wf (tr : Bool) :
    ∀ (rows : List DbLink) (st : List String × List (String × Nat) × List (Nat × Nat)),
    st.1.Nodup → st.2.1 = st.1.enum.map (fun p => (p.2, p.1)) →
    (∀ e ∈ st.2.2, e.1 < st.1.length ∧ e.2 < st.1.length) →
    (rows.foldl (loadStep tr) st).1.Nodup ∧
    (rows.foldl (loadStep tr) st).2.1 =
      (rows.foldl (loadStep tr) st).1.enum.map (fun p => (p.2, p.1)) ∧
    (∀ e ∈ (rows.foldl (loadStep tr) st).2.2,
      e.1 < (rows.foldl (loadStep tr) st).1.length ∧
      e.2 < (rows.foldl (loadStep tr) st).1.length) := by
  intro rows
  induction rows with
  | nil => intro st h1 h2 h3; exact ⟨h1, h2, h3⟩
  | cons lk rows ih =>
    intro st h1 h2 h3
    rw [List.foldl_cons]
    obtain ⟨g1, g2, g3⟩ := loadStep_wf tr st lk h1 h2 h3
    exact ih (loadStep tr st lk) g1 g2 g3

/-- The loaded linkage table is well formed: distinct node weights, the
node map is exactly the enumeration of the weights, edge endpoints are
valid node indices, and the flag is as requested. -/
theorem load_linkage_table_wf (acctId : Int) (tr : Bool) (db : Database) :
    (load_linkage_table acctId tr db).weights.Nodup ∧
    (load_linkage_table acctId tr db).nodes =
      (load_linkage_table acctId tr db).weights.enum.map (fun p => (p.2, p.1)) ∧
    (∀ e ∈ (load_linkage_table acctId tr db).edges,
      e.1 < (load_linkage_table acctId tr db).weights.length ∧
      e.2 < (load_linkage_table acctId tr db).weights.length) ∧
    (load_linkage_table acctId tr db).transposed = tr := by
  unfold load_linkage_table
  rcases hf : (db.links.filter (fun l => decide (l.account_id = acctId))).foldl
      (loadStep tr) ([], [], []) with ⟨w, nd, es⟩
  have h := loadFold_wf tr (db.links.filter (fun l => decide (l.account_id = acctId)))
    ([], [], []) (List.nodup_nil) rfl (by intro e he; cases he)
  rw [hf] at h
  dsimp only at h ⊢
  rw [hf]
  dsimp only
  exact ⟨h.1, h.2.1, h.2.2, rfl⟩

theorem lookup_spec_get {T : LinkageTable}
    (hspec : T.nodes = T.weights.enum.map (fun p => (p.2, p.1)))
    {s : String} {ix : Nat} (h : lookupId T.nodes s = some ix) :
    ix < T.weights.length ∧ T.weights.get? ix = some s := by
  have h2 : lookupId ((T.weights.enumFrom 0).map (fun p => (p.2, p.1))) s = some ix := by
    rw [hspec] at h
    exact h
  rcases lookup_enumFrom_inv T.weights 0 s ix h2 with ⟨i, hi, hg⟩
  have hi0 : ix = i := by omega
  subst hi0
  exact ⟨(List.get?_eq_some.mp hg).1, hg⟩

theorem get_lookup_spec {T : LinkageTable} (hnd : T.weights.Nodup)
    (hspec : T.nodes = T.weights.enum.map (fun p => (p.2, p.1)))
    {s : String} {ix : Nat} (h : T.weights.get? ix = some s) :
    lookupId T.nodes s = some ix := by
  have h2 := lookup_enumFrom_get T.weights 0 s ix hnd h
  rw [hspec]
  simpa using h2

/-! ## From good chains to spec-side simple parent paths -/

theorem chainB_map (t : LinkageTable)
    (hnodup : t.weights.Nodup)
    (hspec : t.nodes = t.weights.enum.map (fun p => (p.2, p.1))) :
    ∀ (xs : List Nat), xs.Chain' (fun u v => (u, v) ∈ t.edges) →
    (∀ x ∈ xs, x < t.weights.length) →
    chainB t (xs.map (wAt t)) = true := by
  intro xs
  induction xs with
  | nil => intro _ _; rfl
  | cons u rest ih =>
    intro hch hb
    cases rest with
    | nil => rfl
    | cons v rest' =>
      have hmain := List.chain'_cons.mp hch
      rw [List.map_cons, List.map_cons]
      show (hasEdgeB t (wAt t u) (wAt t v) && chainB t (wAt t v :: rest'.map (wAt t))) = true
      rw [Bool.and_eq_true]
      constructor
      · have hu : u < t.weights.length := hb u (by simp)
        have hv : v < t.weights.length := hb v (by simp)
        rcases List.get?_eq_get hu with hgu
        rcases List.get?_eq_get hv with hgv
        have hlu : lookupId t.nodes (wAt t u) = some u :=
          get_lookup_spec hnodup hspec (by rw [hgu]; rw [wAt, hgu]; rfl)
        have hlv : lookupId t.nodes (wAt t v) = some v :=
          get_lookup_spec hnodup hspec (by rw [hgv]; rw [wAt, hgv]; rfl)
        unfold hasEdgeB
        rw [hlu, hlv]
        simpa using hmain.1
      · have h2 := ih hmain.2 (fun x hx => hb x (List.mem_cons_of_mem _ hx))
        rw [List.map_cons] at h2
        exact h2

theorem wAt_lookup (t : LinkageTable) (hnodup : t.weights.Nodup)
    (hspec : t.nodes = t.weights.enum.map (fun p => (p.2, p.1)))
    {x : Nat} (hx : x < t.weights.length) :
    lookupId t.nodes (wAt t x) = some x := by
  rcases List.get?_eq_get hx with hg
  exact get_lookup_spec hnodup hspec (by rw [hg, wAt, hg]; rfl)

/-- The materialization of a good chain of a root is a simple parent
path in the sense of the specification. -/
theorem goodChain_spec_path (t : LinkageTable) (startId : String) (six cur : Nat)
    (lc : List Nat)
    (hnodup : t.weights.Nodup)
    (hspec : t.nodes = t.weights.enum.map (fun p => (p.2, p.1)))
    (hlk : lookupId t.nodes startId = some six)
    (hroot : (rootsList t).contains cur = true)
    (hg : GoodChain t six cur lc) :
    specSimpleParentPath t startId ((lc.dropLast).map (wAt t)) = true := by
  have hsix := lookup_spec_get hspec hlk
  have hwsix : wAt t six = startId := by rw [wAt, hsix.2]; rfl
  have hlnn : lc ≠ [] := by
    intro h
    have h2 := hg.head_eq
    rw [h] at h2
    cases h2
  have hlast : lc.getLast hlnn = six := by
    have h2 := hg.last_eq
    rw [List.getLast?_eq_getLast lc hlnn] at h2
    exact (Option.some.injEq _ _).mp h2
  have hsplit : lc.dropLast ++ [six] = lc := by
    rw [← hlast]
    exact List.dropLast_append_getLast hlnn
  have hcur_mem : cur ∈ lc := by
    cases hl : lc with
    | nil => exact absurd hl hlnn
    | cons a l' =>
      have h2 := hg.head_eq
      rw [hl] at h2
      simp at h2
      rw [h2]
      simp
  have hcur_lt : cur < t.weights.length := hg.bounded cur hcur_mem
  -- the spec-side walk is the reverse of the chain, mapped to weights
  have hc_eq : startId :: ((lc.dropLast).map (wAt t)).reverse =
      (lc.reverse).map (wAt t) := by
    conv_rhs => rw [← hsplit]
    rw [List.reverse_append, List.reverse_singleton, List.map_append, List.map_reverse]
    simp [hwsix]
  unfold specSimpleParentPath
  rw [hlk]
  dsimp only
  rw [hc_eq]
  rw [Bool.and_eq_true, Bool.and_eq_true]
  refine ⟨⟨?_, ?_⟩, ?_⟩
  · -- consecutive edges
    apply chainB_map t hnodup hspec
    · rw [List.chain'_reverse]
      have h2 := hg.edges_ok
      exact h2.imp (fun {a b} hab => hab)
    · intro x hx
      exact hg.bounded x (List.mem_reverse.mp hx)
  · -- ends at a root
    have hgl : ((lc.reverse).map (wAt t)).getLast? = some (wAt t cur) := by
      rw [List.getLast?_eq_head?_reverse, List.map_reverse, List.reverse_reverse,
        List.head?_map, hg.head_eq]
      rfl
    rw [hgl]
    dsimp only
    unfold isRootIdB
    rw [wAt_lookup t hnodup hspec hcur_lt]
    have hin : cur ∈ rootsList t := List.elem_iff.mp hroot
    rcases List.mem_filter.mp hin with ⟨_, hdec⟩
    exact hdec
  · -- no repeated ids
    rw [decide_eq_true_eq]
    refine List.Nodup.map_on ?_ (List.nodup_reverse.mpr hg.nodup)
    intro x hx y hy hxy
    have hlx := wAt_lookup t hnodup hspec (hg.bounded x (List.mem_reverse.mp hx))
    have hly := wAt_lookup t hnodup hspec (hg.bounded y (List.mem_reverse.mp hy))
    rw [hxy] at hlx
    rw [hlx] at hly
    exact (Option.some.injEq _ _).mp hly

/-- Running `find_parent_paths` on a well-formed table: the worklist
completes within `fppFuelBound` (and any larger fuel gives the same
result), and every output path materializes a good chain of a root. -/
theorem fpp_run (t : LinkageTable) (startId : String)
    (htr : t.transposed = true)
    (hwf : ∀ e ∈ t.edges, e.1 < t.weights.length ∧ e.2 < t.weights.length)
    (hspec : t.nodes = t.weights.enum.map (fun p => (p.2, p.1))) :
    ∃ res, (∀ fuel, fppFuelBound t ≤ fuel →
        findParentPathsFuel t startId fuel = some res) ∧
      ∀ p ∈ res, ∃ six cur lc, lookupId t.nodes startId = some six ∧
        (rootsList t).contains cur = true ∧ GoodChain t six cur lc ∧
        p = (lc.dropLast).map (wAt t) := by
  have hcond : ¬(t.transposed = false) := by rw [htr]; simp
  cases hlk : lookupId t.nodes startId with
  | none =>
    refine ⟨[], fun fuel _ => ?_, by simp⟩
    unfold findParentPathsFuel
    rw [if_neg hcond, hlk]
  | some six =>
    have hsix := lookup_spec_get hspec hlk
    have hchain0 : Chain (pdSet (fun _ => none) six none) six [six] :=
      Chain.last six (by rw [pdSet, if_pos rfl])
    have hgood0 : GoodChain t six six [six] := by
      refine ⟨rfl, rfl, List.nodup_singleton six, ?_, List.chain'_singleton six⟩
      intro x hx
      rw [List.mem_singleton.mp hx]
      exact hsix.1
    have hinv0 : FppInv t six [six] (pdSet (fun _ => none) six none) [[six]] :=
      ⟨List.Forall₂.cons ⟨hchain0, hgood0⟩ List.Forall₂.nil,
        List.nodup_singleton six, by simp [List.pairwise_singleton]⟩
    have hphi0 : phi t.weights.length (t.edges.length + 2) [[six]] < fppFuelBound t := by
      have h1 : phi t.weights.length (t.edges.length + 2) [[six]] =
          (t.edges.length + 2) ^ (t.weights.length - 1) := by
        simp [phi]
      rw [h1]
      unfold fppFuelBound
      have h2 : (t.edges.length + 2) ^ (t.weights.length - 1) ≤
          (t.edges.length + 2) ^ t.weights.length :=
        Nat.pow_le_pow_right (by omega) (by omega)
      omega
    rcases fppLoop_spec t six hwf (fppFuelBound t) [six]
      (pdSet (fun _ => none) six none) [[six]] [] hinv0 hphi0 with ⟨res, hres, hsound⟩
    refine ⟨res, ?_, ?_⟩
    · intro fuel hfuel
      unfold findParentPathsFuel
      rw [if_neg hcond, hlk]
      exact fppLoop_mono_le t (rootsList t) hfuel hres
    · intro p hp
      rcases hsound p hp with h1 | ⟨cur, lc, hroot, hgood, hpeq⟩
      · cases h1
      · exact ⟨six, cur, lc, rfl, hroot, hgood, hpeq⟩

/-- C1 (amended): over every linkage graph loaded with `transposed=true`
and every starting id, `find_parent_paths` completes and every path it
returns is a simple (non-repeating) ancestor path from the start to a
root, in the sense of the specification's path definition.  (The
enumeration is not complete: see the counterexample theorem.) -/
theorem find_parent_paths_sound (acctId : Int) (db : Database) (startId : String) :
    ∃ res, find_parent_paths (load_linkage_table acctId true db) startId = some res ∧
      ∀ p ∈ res,
        specSimpleParentPath (load_linkage_table acctId true db) startId p = true := by
  obtain ⟨hnodup, hspec, hwf, htr⟩ := load_linkage_table_wf acctId true db
  rcases fpp_run (load_linkage_table acctId true db) startId htr hwf hspec with
    ⟨res, hrun, hsound⟩
  refine ⟨res, hrun _ (le_refl _), ?_⟩
  intro p hp
  rcases hsound p hp with ⟨six, cur, lc, hlk, hroot, hgood, rfl⟩
  exact goodChain_spec_path _ startId six cur lc hnodup hspec hlk hroot hgood

/-- C2: on every linkage graph loaded with `transposed=true` — cyclic
graphs included — `find_parent_paths` terminates (the explicit fuel is
never exhausted, and every fuel at least `fppFuelBound` yields the same
result), and every returned path is simple: no document id occurs twice
within one returned path. -/
theorem find_parent_paths_terminates (acctId : Int) (db : Database) (startId : String) :
    ∃ res, find_parent_paths (load_linkage_table acctId true db) startId = some res ∧
      (∀ fuel, fppFuelBound (load_linkage_table acctId true db) ≤ fuel →
        findParentPathsFuel (load_linkage_table acctId true db) startId fuel = some res) ∧
      ∀ p ∈ res, p.Nodup := by
  obtain ⟨hnodup, hspec, hwf, htr⟩ := load_linkage_table_wf acctId true db
  rcases fpp_run (load_linkage_table acctId true db) startId htr hwf hspec with
    ⟨res, hrun, hsound⟩
  refine ⟨res, hrun _ (le_refl _), hrun, ?_⟩
  intro p hp
  rcases hsound p hp with ⟨six, cur, lc, hlk, hroot, hgood, rfl⟩
  have hdl : (lc.dropLast).Nodup := hgood.nodup.sublist (List.dropLast_sublist lc)
  refine List.Nodup.map_on ?_ hdl
  intro x hx y hy hxy
  have hxm : x ∈ lc := (List.dropLast_sublist lc).mem hx
  have hym : y ∈ lc := (List.dropLast_sublist lc).mem hy
  have hlx := wAt_lookup _ hnodup hspec (hgood.bounded x hxm)
  have hly := wAt_lookup _ hnodup hspec (hgood.bounded y hym)
  rw [hxy] at hlx
  rw [hlx] at hly
  exact (Option.some.injEq _ _).mp hly

/-- C1, counterexample to the claim as stated: on the graph where `x`
and `a` are both parents of `s` and `x` is a parent of `a`, the simple
ancestor chain `s → a → x` (output form `["x", "a"]`) is missing from
the output of `find_parent_paths`, which returns only `[["x"]]`. -/
theorem find_parent_paths_incomplete_cex :
    find_parent_paths exTableMissing "s" = some [["x"]] ∧
    specSimpleParentPath exTableMissing "s" ["x", "a"] = true ∧
    (["x", "a"] : List String) ∉ [[("x" : String)]] := by
  refine ⟨by decide, by decide, by decide⟩

/-! ## Witnesses: the theorems applied at concrete inputs -/

theorem sync_removed_clears_witness :
    ∃ db1, applyChange 1 exDbRemoval exRemovalChange = .ok db1 ∧
      ((∀ l ∈ db1.links, l.account_id = 1 → l.parent_id ≠ "d" ∧ l.child_id ≠ "d") ∧
       (∀ a ∈ db1.assocs, a.account_id = 1 → a.doc_id ≠ "d") ∧
       (∀ d ∈ db1.docs, d.id ≠ "d")) :=
  ⟨_, rfl, sync_removed_clears 1 exDbRemoval exRemovalChange "d" _ rfl rfl rfl⟩

theorem sync_removed_deletes_assocs_witness :
    ∃ db1, applyChange 1 exDbRemoval exRemovalChange = .ok db1 ∧
      (db1.assocs = exDbRemoval.assocs.filter (fun a => decide (¬(a.doc_id = "d"))) ∧
       ∀ a ∈ exDbRemoval.assocs, a.doc_id = "d" → a ∉ db1.assocs) :=
  ⟨_, rfl,
    sync_removed_deletes_assocs_all_accounts 1 exDbRemoval exRemovalChange "d" _ rfl rfl rfl⟩

theorem sync_update_replaces_links_witness :
    ∃ db1, applyChange 1 exDbRemoval exUpdateChange = .ok db1 ∧
      ∀ l : DbLink, (l ∈ db1.links ∧ l.account_id = 1 ∧ l.child_id = "d") ↔
        l ∈ (["q"].map (fun pid => DbLink.mk 1 pid "d")) :=
  ⟨_, rfl,
    sync_update_replaces_links 1 exDbRemoval exUpdateChange "d" _ _ rfl rfl rfl rfl⟩

theorem sync_account_failure_witness :
    (∃ e', (sync_account exFailingChanges "tokNext" 1 ⟨some "tok0"⟩ ⟨some "tok0"⟩
        exDbRemoval).result = .error e') ∧
    (sync_account exFailingChanges "tokNext" 1 ⟨some "tok0"⟩ ⟨some "tok0"⟩
        exDbRemoval).disk = ⟨some "tok0"⟩ :=
  sync_account_failure_no_persist exFailingChanges "tokNext" 1 ⟨some "tok0"⟩
    ⟨some "tok0"⟩ exDbRemoval "tok0" rfl "HTTP 500" (by decide)

theorem import_documents_idempotent_witness :
    ∃ db1, import_documents 1 exRootFile exListing ⟨[], [], [], [], []⟩ = .ok db1 ∧
      (import_documents 1 exRootFile exListing db1 = .ok db1 ∧
       ((⟨[], [], [], [], []⟩ : Database).links.Nodup → db1.links.Nodup)) :=
  ⟨_, rfl, import_documents_idempotent 1 exRootFile exListing ⟨[], [], [], [], []⟩ _ rfl⟩

theorem resolver_exact_id_precedence_witness :
    process_impl exDbPrecedence "X" = some (.ok [mkDoc "X" "other"]) :=
  resolver_exact_id_precedence exDbPrecedence "X" (mkDoc "X" "other")
    (by decide) (by decide) rfl

theorem process_one_contract_witness :
    ∃ out, process_one exDb25 "match" = some out ∧
      ((∃ d, out.result = .ok d) ↔ exDocs25.length = 1) ∧
      (∀ d, exDocs25 = [d] → out.result = .ok d) ∧
      (exDocs25.length = 0 → ∃ e, out.result = .error e) ∧
      (1 < exDocs25.length → (∃ e, out.result = .error e) ∧
        out.printed = exDocs25.take MAX_TO_PRINT) ∧
      (MAX_TO_PRINT < exDocs25.length → out.printed.length = MAX_TO_PRINT) :=
  process_one_contract exDb25 "match" exDocs25 (by decide)

theorem ids_to_docs_requires_rows_witness :
    ids_to_docs exDbDangling ["P"] = none ∧
    ((∀ i ∈ ["P"], ∃ d ∈ exDbDangling.docs, d.id = i) →
      ∃ ds, ids_to_docs exDbDangling ["P"] = some ds ∧ ds.length = (["P"] : List String).length) ∧
    process_impl exDbDangling ".." = none :=
  ids_to_docs_requires_rows exDbDangling ["P"] [mkDoc "C" "cfold"] (mkDoc "C" "cfold")
    ["P"] "P" (by decide) (by decide) rfl (by decide) (by decide) (by decide) (by decide)

theorem find_parent_paths_sound_witness :
    ∃ res, find_parent_paths (load_linkage_table 1 true exDbMissing) "s" = some res ∧
      ∀ p ∈ res,
        specSimpleParentPath (load_linkage_table 1 true exDbMissing) "s" p = true :=
  find_parent_paths_sound 1 exDbMissing "s"

theorem find_parent_paths_terminates_witness :
    ∃ res, find_parent_paths (load_linkage_table 1 true exDbCycle) "s" = some res ∧
      (∀ fuel, fppFuelBound (load_linkage_table 1 true exDbCycle) ≤ fuel →
        findParentPathsFuel (load_linkage_table 1 true exDbCycle) "s" fuel = some res) ∧
      ∀ p ∈ res, p.Nodup :=
  find_parent_paths_terminates 1 exDbCycle "s"

end Drorg
